import Mathlib

/-!
# rsescan: port normalisation, pagination, flag routing and request bodies

A shallow embedding of `src/main.go`.  Go strings and byte slices are lists of
bytes, Go `int` is a 64-bit two's-complement integer carried in `Int`, and the
two standard-library calls `parsePort` relies on (`json.Unmarshal`,
`strconv.Atoi`) are embedded after the Go standard library sources
(`encoding/json/scanner.go`, `encoding/json/decode.go`, `strconv/atoi.go`,
`unicode/utf8`, `unicode/utf16`).
-/

deriving instance DecidableEq for Except

namespace Rsescan

/-! ## Bytes and strings -/

/-- A Go `byte`. -/
abbrev Byte := Fin 256

/-- A Go `string` or `[]byte`: a sequence of bytes. -/
abbrev Bytes := List Byte

/-- UTF-8 encoding of one code point, after `utf8.EncodeRune`; code points above
`MaxRune` and surrogates are encoded as `RuneError` (U+FFFD). -/
def encodeRune (r : Nat) : Bytes :=
  if r ≤ 0x7F then [Fin.ofNat r]
  else if r ≤ 0x7FF then [Fin.ofNat (0xC0 + r / 64), Fin.ofNat (0x80 + r % 64)]
  else if r > 0x10FFFF ∨ (0xD800 ≤ r ∧ r ≤ 0xDFFF) then [0xEF, 0xBF, 0xBD]
  else if r ≤ 0xFFFF then
    [Fin.ofNat (0xE0 + r / 4096), Fin.ofNat (0x80 + r / 64 % 64), Fin.ofNat (0x80 + r % 64)]
  else
    [Fin.ofNat (0xF0 + r / 262144), Fin.ofNat (0x80 + r / 4096 % 64),
      Fin.ofNat (0x80 + r / 64 % 64), Fin.ofNat (0x80 + r % 64)]

/-- The bytes of a string literal: what a Go string constant with this text holds. -/
def bytes (s : String) : Bytes :=
  s.toList.flatMap (fun c => encodeRune c.toNat)

/-! ## `encoding/json`: the scanner (`scanner.go`) -/

/-- The step functions of the JSON scanner (`stateBeginValue`, `stateInString`, ...);
`one` and `zero` are `state1` and `state0`. -/
inductive Step
  | beginValueOrEmpty | beginValue | beginStringOrEmpty | beginString
  | endValue | endTop
  | inString | inStringEsc | inStringEscU | inStringEscU1 | inStringEscU12 | inStringEscU123
  | neg | one | zero | dot | dot0 | e | eSign | e0
  | t | tr | tru | f | fa | fal | fals | n | nu | nul
  | error
  deriving DecidableEq, Repr

/-- The entries of the scanner's parse stack. -/
inductive ParseState
  | objectKey | objectValue | arrayValue
  deriving DecidableEq, Repr

/-- The scan codes returned by a step. -/
inductive Scan
  | continue | beginLiteral | beginObject | objectKey | objectValue | endObject
  | beginArray | arrayValue | endArray | skipSpace | end | error
  deriving DecidableEq, Repr

/-- The scanner state.  `parseState` has the innermost entry first (Go appends it
last); `err` records that `s.err` is non-nil. -/
structure Scanner where
  step : Step
  parseState : List ParseState
  err : Bool
  endTop : Bool
  deriving DecidableEq, Repr

/-- Nesting limit of the scanner. -/
def maxNestingDepth : Nat := 10000

/-- The scanner after `reset`. -/
def Scanner.reset : Scanner :=
  { step := .beginValue, parseState := [], err := false, endTop := false }

/-- Go `isSpace`: space, tab, carriage return, line feed. -/
def isSpace (c : Byte) : Bool :=
  c.val = 32 || c.val = 9 || c.val = 13 || c.val = 10

/-- Go `(*scanner).error`: record the error and switch to the error state. -/
def Scanner.fail (s : Scanner) : Scanner × Scan :=
  ({ s with step := .error, err := true }, .error)

/-- Go `pushParseState`. -/
def Scanner.pushParseState (s : Scanner) (p : ParseState) (ok : Scan) : Scanner × Scan :=
  let s1 := { s with parseState := p :: s.parseState }
  if s1.parseState.length ≤ maxNestingDepth then (s1, ok) else s1.fail

/-- Go `popParseState`. -/
def Scanner.popParseState (s : Scanner) : Scanner :=
  let ps := s.parseState.tail
  if ps.length = 0 then { s with parseState := ps, step := .endTop, endTop := true }
  else { s with parseState := ps, step := .endValue }

/-- Go `stateEndTop`: a non-space byte after the top-level value records the
error, which is reported on the next call. -/
def stateEndTop (s : Scanner) (c : Byte) : Scanner × Scan :=
  if !isSpace c then ((s.fail).1, .end) else (s, .end)

/-- Go `stateEndValue`. -/
def stateEndValue (s : Scanner) (c : Byte) : Scanner × Scan :=
  match s.parseState with
  | [] => stateEndTop { s with step := .endTop, endTop := true } c
  | ps :: rest =>
    if isSpace c then ({ s with step := .endValue }, .skipSpace)
    else match ps with
      | .objectKey =>
        if c.val = 58 then
          ({ s with parseState := .objectValue :: rest, step := .beginValue }, .objectKey)
        else s.fail
      | .objectValue =>
        if c.val = 44 then
          ({ s with parseState := .objectKey :: rest, step := .beginString }, .objectValue)
        else if c.val = 125 then (s.popParseState, .endObject)
        else s.fail
      | .arrayValue =>
        if c.val = 44 then ({ s with step := .beginValue }, .arrayValue)
        else if c.val = 93 then (s.popParseState, .endArray)
        else s.fail

/-- Go `stateBeginValue`. -/
def stateBeginValue (s : Scanner) (c : Byte) : Scanner × Scan :=
  if isSpace c then (s, .skipSpace)
  else if c.val = 123 then
    Scanner.pushParseState { s with step := .beginStringOrEmpty } .objectKey .beginObject
  else if c.val = 91 then
    Scanner.pushParseState { s with step := .beginValueOrEmpty } .arrayValue .beginArray
  else if c.val = 34 then ({ s with step := .inString }, .beginLiteral)
  else if c.val = 45 then ({ s with step := .neg }, .beginLiteral)
  else if c.val = 48 then ({ s with step := .zero }, .beginLiteral)
  else if c.val = 116 then ({ s with step := .t }, .beginLiteral)
  else if c.val = 102 then ({ s with step := .f }, .beginLiteral)
  else if c.val = 110 then ({ s with step := .n }, .beginLiteral)
  else if 49 ≤ c.val ∧ c.val ≤ 57 then ({ s with step := .one }, .beginLiteral)
  else s.fail

/-- Go `stateBeginValueOrEmpty`. -/
def stateBeginValueOrEmpty (s : Scanner) (c : Byte) : Scanner × Scan :=
  if isSpace c then (s, .skipSpace)
  else if c.val = 93 then stateEndValue s c
  else stateBeginValue s c

/-- Go `stateBeginString`. -/
def stateBeginString (s : Scanner) (c : Byte) : Scanner × Scan :=
  if isSpace c then (s, .skipSpace)
  else if c.val = 34 then ({ s with step := .inString }, .beginLiteral)
  else s.fail

/-- Go `stateBeginStringOrEmpty`. -/
def stateBeginStringOrEmpty (s : Scanner) (c : Byte) : Scanner × Scan :=
  if isSpace c then (s, .skipSpace)
  else if c.val = 125 then
    stateEndValue { s with parseState := .objectValue :: s.parseState.tail } c
  else stateBeginString s c

/-- Go `stateInString`. -/
def stateInString (s : Scanner) (c : Byte) : Scanner × Scan :=
  if c.val = 34 then ({ s with step := .endValue }, .continue)
  else if c.val = 92 then ({ s with step := .inStringEsc }, .continue)
  else if c.val < 32 then s.fail
  else (s, .continue)

/-- Go `stateInStringEsc`. -/
def stateInStringEsc (s : Scanner) (c : Byte) : Scanner × Scan :=
  if c.val = 98 ∨ c.val = 102 ∨ c.val = 110 ∨ c.val = 114 ∨ c.val = 116 ∨ c.val = 92
      ∨ c.val = 47 ∨ c.val = 34 then
    ({ s with step := .inString }, .continue)
  else if c.val = 117 then ({ s with step := .inStringEscU }, .continue)
  else s.fail

/-- A hexadecimal digit, as tested in the `\u` escape states. -/
def isHex (c : Byte) : Bool :=
  (48 ≤ c.val && c.val ≤ 57) || (97 ≤ c.val && c.val ≤ 102) || (65 ≤ c.val && c.val ≤ 70)

/-- Go `stateInStringEscU`, `...U1`, `...U12`, `...U123`: one hexadecimal digit,
then on to `next`. -/
def stateHex (next : Step) (s : Scanner) (c : Byte) : Scanner × Scan :=
  if isHex c then ({ s with step := next }, .continue) else s.fail

/-- A decimal digit. -/
def isDigit (c : Byte) : Bool := 48 ≤ c.val && c.val ≤ 57

/-- Go `stateNeg`. -/
def stateNeg (s : Scanner) (c : Byte) : Scanner × Scan :=
  if c.val = 48 then ({ s with step := .zero }, .continue)
  else if 49 ≤ c.val ∧ c.val ≤ 57 then ({ s with step := .one }, .continue)
  else s.fail

/-- Go `state0`. -/
def state0 (s : Scanner) (c : Byte) : Scanner × Scan :=
  if c.val = 46 then ({ s with step := .dot }, .continue)
  else if c.val = 101 ∨ c.val = 69 then ({ s with step := .e }, .continue)
  else stateEndValue s c

/-- Go `state1`. -/
def state1 (s : Scanner) (c : Byte) : Scanner × Scan :=
  if isDigit c then ({ s with step := .one }, .continue) else state0 s c

/-- Go `stateDot`. -/
def stateDot (s : Scanner) (c : Byte) : Scanner × Scan :=
  if isDigit c then ({ s with step := .dot0 }, .continue) else s.fail

/-- Go `stateDot0`. -/
def stateDot0 (s : Scanner) (c : Byte) : Scanner × Scan :=
  if isDigit c then (s, .continue)
  else if c.val = 101 ∨ c.val = 69 then ({ s with step := .e }, .continue)
  else stateEndValue s c

/-- Go `stateESign`. -/
def stateESign (s : Scanner) (c : Byte) : Scanner × Scan :=
  if isDigit c then ({ s with step := .e0 }, .continue) else s.fail

/-- Go `stateE`. -/
def stateE (s : Scanner) (c : Byte) : Scanner × Scan :=
  if c.val = 43 ∨ c.val = 45 then ({ s with step := .eSign }, .continue)
  else stateESign s c

/-- Go `stateE0`. -/
def stateE0 (s : Scanner) (c : Byte) : Scanner × Scan :=
  if isDigit c then (s, .continue) else stateEndValue s c

/-- Go `stateT`, `stateTr`, ..., `stateNu`: the byte `want`, then on to `next`. -/
def stateWord (want : Nat) (next : Step) (s : Scanner) (c : Byte) : Scanner × Scan :=
  if c.val = want then ({ s with step := next }, .continue) else s.fail

/-- Go `s.step(s, c)`: run the current step function on one byte. -/
def Scanner.run (s : Scanner) (c : Byte) : Scanner × Scan :=
  match s.step with
  | .beginValueOrEmpty => stateBeginValueOrEmpty s c
  | .beginValue => stateBeginValue s c
  | .beginStringOrEmpty => stateBeginStringOrEmpty s c
  | .beginString => stateBeginString s c
  | .endValue => stateEndValue s c
  | .endTop => stateEndTop s c
  | .inString => stateInString s c
  | .inStringEsc => stateInStringEsc s c
  | .inStringEscU => stateHex .inStringEscU1 s c
  | .inStringEscU1 => stateHex .inStringEscU12 s c
  | .inStringEscU12 => stateHex .inStringEscU123 s c
  | .inStringEscU123 => stateHex .inString s c
  | .neg => stateNeg s c
  | .one => state1 s c
  | .zero => state0 s c
  | .dot => stateDot s c
  | .dot0 => stateDot0 s c
  | .e => stateE s c
  | .eSign => stateESign s c
  | .e0 => stateE0 s c
  | .t => stateWord 114 .tr s c
  | .tr => stateWord 117 .tru s c
  | .tru => stateWord 101 .endValue s c
  | .f => stateWord 97 .fa s c
  | .fa => stateWord 108 .fal s c
  | .fal => stateWord 115 .fals s c
  | .fals => stateWord 101 .endValue s c
  | .n => stateWord 117 .nu s c
  | .nu => stateWord 108 .nul s c
  | .nul => stateWord 108 .endValue s c
  | .error => (s, .error)

/-- The byte loop of Go `checkValid`: `none` as soon as a step returns `scanError`. -/
def scanAll : Scanner → Bytes → Option Scanner
  | s, [] => some s
  | s, c :: cs =>
    match s.run c with
    | (_, .error) => none
    | (s1, _) => scanAll s1 cs

/-- Go `(*scanner).eof`. -/
def Scanner.eof (s : Scanner) : Scan :=
  if s.err then .error
  else if s.endTop then .end
  else if (s.run 32).1.endTop then .end
  else .error

/-- Go `checkValid`: `true` when it returns a nil error. -/
def checkValid (data : Bytes) : Bool :=
  match scanAll Scanner.reset data with
  | none => false
  | some s => s.eof != .error

/-! ## `unicode/utf8`, `unicode/utf16` and `unquoteBytes` (`decode.go`) -/

/-- The code point `utf8.RuneError` (U+FFFD, also `unicode.ReplacementChar`). -/
def runeError : Nat := 0xFFFD

/-- The width that the lead byte of a multi-byte sequence announces (the low
bits of Go's table `first`), for a lead byte from 0xC2 to 0xF4. -/
def leadSize (p0 : Byte) : Nat :=
  if p0.val < 0xE0 then 2 else if p0.val < 0xF0 then 3 else 4

/-- The least second byte allowed after the lead byte (Go's `acceptRanges`). -/
def acceptLo (p0 : Byte) : Nat :=
  if p0.val = 0xE0 then 0xA0 else if p0.val = 0xF0 then 0x90 else 0x80

/-- The greatest second byte allowed after the lead byte (Go's `acceptRanges`). -/
def acceptHi (p0 : Byte) : Nat :=
  if p0.val = 0xED then 0x9F else if p0.val = 0xF4 then 0x8F else 0xBF

/-- Go `utf8.DecodeRune`: the first code point of `p` and its width in bytes;
`(runeError, 1)` for an ill-formed sequence and `(runeError, 0)` for no input. -/
def decodeRune : Bytes → Nat × Nat
  | [] => (runeError, 0)
  | p0 :: rest =>
    if p0.val < 0x80 then (p0.val, 1)
    else if p0.val < 0xC2 ∨ 0xF4 < p0.val then (runeError, 1)
    else if rest.length + 1 < leadSize p0 then (runeError, 1)
    else match rest with
      | [] => (runeError, 1)
      | b1 :: rest1 =>
        if b1.val < acceptLo p0 ∨ acceptHi p0 < b1.val then (runeError, 1)
        else if leadSize p0 ≤ 2 then (p0.val % 32 * 64 + b1.val % 64, 2)
        else match rest1 with
          | [] => (runeError, 1)
          | b2 :: rest2 =>
            if b2.val < 0x80 ∨ 0xBF < b2.val then (runeError, 1)
            else if leadSize p0 ≤ 3 then
              (p0.val % 16 * 4096 + b1.val % 64 * 64 + b2.val % 64, 3)
            else match rest2 with
              | [] => (runeError, 1)
              | b3 :: _ =>
                if b3.val < 0x80 ∨ 0xBF < b3.val then (runeError, 1)
                else (p0.val % 8 * 262144 + b1.val % 64 * 4096 + b2.val % 64 * 64
                        + b3.val % 64, 4)

/-- The value of one hexadecimal digit in `getu4`. -/
def hexVal (c : Byte) : Option Nat :=
  if 48 ≤ c.val ∧ c.val ≤ 57 then some (c.val - 48)
  else if 97 ≤ c.val ∧ c.val ≤ 102 then some (c.val - 97 + 10)
  else if 65 ≤ c.val ∧ c.val ≤ 70 then some (c.val - 65 + 10)
  else none

/-- Go `getu4`: the code unit of a `\uXXXX` escape at the start of `s`; `none`
is Go's `-1`. -/
def getu4 : Bytes → Option Nat
  | b :: u :: h1 :: h2 :: h3 :: h4 :: _ =>
    if b.val = 92 ∧ u.val = 117 then
      match hexVal h1, hexVal h2, hexVal h3, hexVal h4 with
      | some a, some b, some c, some d => some (((a * 16 + b) * 16 + c) * 16 + d)
      | _, _, _, _ => none
    else none
  | _ => none

/-- Go `utf16.IsSurrogate`. -/
def isSurrogate (r : Nat) : Bool := 0xD800 ≤ r && r < 0xE000

/-- Go `utf16.DecodeRune`, with `none` for the `-1` that `getu4` may hand over. -/
def utf16DecodeRune (r1 : Nat) (r2 : Option Nat) : Nat :=
  match r2 with
  | some r2 =>
    if 0xD800 ≤ r1 ∧ r1 < 0xDC00 ∧ 0xDC00 ≤ r2 ∧ r2 < 0xE000 then
      (r1 - 0xD800) * 1024 + (r2 - 0xDC00) + 0x10000
    else runeError
  | none => runeError

/-- The first loop of `unquoteBytes`: the index of the first byte that needs
work (a backslash, a quote, a control byte or ill-formed UTF-8), or the length
of `s` when there is none.  `fuel` bounds the number of iterations. -/
def unquoteScan : Nat → Bytes → Nat
  | 0, _ => 0
  | _, [] => 0
  | fuel + 1, c :: cs =>
    if c.val = 92 ∨ c.val = 34 ∨ c.val < 32 then 0
    else if c.val < 0x80 then 1 + unquoteScan fuel cs
    else
      let d := decodeRune (c :: cs)
      if d.1 = runeError ∧ d.2 = 1 then 0
      else d.2 + unquoteScan fuel ((c :: cs).drop d.2)

/-- One iteration of the second loop of `unquoteBytes` at the byte `c` followed
by `cs`: the bytes written and the input left, or `none` for Go's `return`
with `ok = false`.  An escape is decoded, a byte below 0x80 is copied, and
anything else is coerced to well-formed UTF-8. -/
def unquoteStep (c : Byte) (cs : Bytes) : Option (Bytes × Bytes) :=
  if c.val = 92 then
    match cs with
    | [] => none
    | e :: rest =>
      if e.val = 34 ∨ e.val = 92 ∨ e.val = 47 ∨ e.val = 39 then some ([e], rest)
      else if e.val = 98 then some ([8], rest)
      else if e.val = 102 then some ([12], rest)
      else if e.val = 110 then some ([10], rest)
      else if e.val = 114 then some ([13], rest)
      else if e.val = 116 then some ([9], rest)
      else if e.val = 117 then
        match getu4 (c :: cs) with
        | none => none
        | some rr =>
          let after := (c :: cs).drop 6
          if isSurrogate rr then
            let dec := utf16DecodeRune rr (getu4 after)
            if dec ≠ runeError then some (encodeRune dec, after.drop 6)
            else some (encodeRune runeError, after)
          else some (encodeRune rr, after)
      else none
  else if c.val = 34 ∨ c.val < 32 then none
  else if c.val < 0x80 then some ([c], cs)
  else
    let d := decodeRune (c :: cs)
    some (encodeRune d.1, (c :: cs).drop d.2)

/-- The second loop of `unquoteBytes`: decode escapes and coerce to well-formed
UTF-8 until the input is used up; `none` is Go's `ok = false`.  `fuel` bounds
the number of iterations. -/
def unquoteLoop : Nat → Bytes → Option Bytes
  | _, [] => some []
  | 0, _ :: _ => none
  | fuel + 1, c :: cs =>
    match unquoteStep c cs with
    | none => none
    | some (out, rest) => (unquoteLoop fuel rest).map (out ++ ·)

/-- Go `unquoteBytes`: the content of the quoted literal `s`, or `none` when
`s` is not a well-formed quoted string. -/
def unquoteBytes (s : Bytes) : Option Bytes :=
  if s.length < 2 ∨ s.head? ≠ some 34 ∨ s.getLast? ≠ some 34 then none
  else
    let body := (s.drop 1).dropLast
    let r := unquoteScan body.length body
    if r = body.length then some body
    else (unquoteLoop body.length (body.drop r)).map (body.take r ++ ·)

/-! ## `strconv`: `ParseUint`, `ParseInt`, `Atoi` (`atoi.go`) -/

/-- The two error kinds of `strconv.NumError`: `ErrSyntax` and `ErrRange`. -/
inductive NumError
  | invalid | range
  deriving DecidableEq, Repr

/-- Bit size of Go `int` and `uint` on the 64-bit platforms the model fixes. -/
def intSize : Nat := 64

/-- Wrap an integer into the range of a Go `int64` (two's complement). -/
def wrap64 (x : Int) : Int := (x + 2 ^ 63) % 2 ^ 64 - 2 ^ 63

/-- The digit loop of `strconv.ParseUint(s, 10, 64)` from the accumulator `n`:
the value and the error, if any.  `cutoff` is `maxUint64/10 + 1`. -/
def parseUintLoop : Nat → Bytes → Nat × Option NumError
  | n, [] => (n, none)
  | n, c :: cs =>
    if 48 ≤ c.val ∧ c.val ≤ 57 then
      let d := c.val - 48
      if n ≥ (2 ^ 64 - 1) / 10 + 1 then (2 ^ 64 - 1, some .range)
      else
        let n10 := n * 10 % 2 ^ 64
        let n1 := (n10 + d) % 2 ^ 64
        if n1 < n10 ∨ n1 > 2 ^ 64 - 1 then (2 ^ 64 - 1, some .range)
        else parseUintLoop n1 cs
    else (0, some .invalid)

/-- Go `strconv.ParseUint(s, 10, 64)`.  With base 10 a letter is a digit of
value at least 10 and an underscore is no digit, so both are syntax errors like
any other byte. -/
def parseUint (s : Bytes) : Nat × Option NumError :=
  if s = [] then (0, some .invalid) else parseUintLoop 0 s

/-- Go `strconv.ParseInt(s, 10, 64)`. -/
def parseInt (s : Bytes) : Int × Option NumError :=
  match s with
  | [] => (0, some .invalid)
  | c :: cs =>
    let neg := c.val = 45
    let s1 := if c.val = 43 ∨ c.val = 45 then cs else s
    match parseUint s1 with
    | (_, some .invalid) => (0, some .invalid)
    | (un, _) =>
      if ¬ neg ∧ un ≥ 2 ^ 63 then (2 ^ 63 - 1, some .range)
      else if neg ∧ un > 2 ^ 63 then (-(2 ^ 63), some .range)
      else
        let n := wrap64 un
        (if neg then wrap64 (-n) else n, none)

/-- The digit loop of the fast path of `strconv.Atoi`: `none` on a byte that is
not a digit (`ch -= '0'; if ch > 9`). -/
def atoiFastLoop : Int → Bytes → Option Int
  | n, [] => some n
  | n, c :: cs =>
    let ch : Byte := c - 48
    if ch.val > 9 then none else atoiFastLoop (wrap64 (n * 10 + ch.val)) cs

/-- Go `strconv.Atoi` with 64-bit `int`; the value Go returns next to a non-nil
error is dropped. -/
def atoi (s : Bytes) : Except NumError Int :=
  if 0 < s.length ∧ s.length < 19 then
    match s with
    | [] => .error .invalid
    | c :: cs =>
      let signed := c.val = 45 ∨ c.val = 43
      let s1 := if signed then cs else s
      if signed ∧ s1.length < 1 then .error .invalid
      else match atoiFastLoop 0 s1 with
        | none => .error .invalid
        | some n => .ok (if c.val = 45 then wrap64 (-n) else n)
  else
    match parseInt s with
    | (i64, none) => .ok i64
    | (_, some e) => .error e

/-! ## `encoding/json`: `Unmarshal` into a `string` and into an `int` -/

/-- The errors of `json.Unmarshal`: a `SyntaxError` from `checkValid`, an
`UnmarshalTypeError` naming the JSON value met, and the decoder's
out-of-sync panic. -/
inductive JsonError
  | malformed
  | mismatch (value : String)
  | desync
  deriving DecidableEq, Repr

/-- Go `scanWhile(scanSkipSpace)` at the start of the data: skip the leading
white space. -/
def skipSpace : Bytes → Bytes
  | [] => []
  | c :: cs => if isSpace c then skipSpace cs else c :: cs

/-- The string case of Go `rescanLiteral`, from the byte after the opening
quote: the rest of the literal up to and including the closing quote. -/
def rescanString : Bytes → Bytes
  | [] => []
  | [c] => [c]
  | c :: d :: rest =>
    if c.val = 92 then c :: d :: rescanString rest
    else if c.val = 34 then [c]
    else c :: rescanString (d :: rest)

/-- The number case of Go `rescanLiteral`: digits, `.`, `e`, `E`, `+`, `-`. -/
def isNumberByte (c : Byte) : Bool :=
  isDigit c || c.val = 46 || c.val = 101 || c.val = 69 || c.val = 43 || c.val = 45

/-- Go `rescanLiteral` and the slice `d.data[start:d.readIndex()]`: the bytes
of the literal that starts with `c`. -/
def literalItem (c : Byte) (rest : Bytes) : Bytes :=
  if c.val = 34 then c :: rescanString rest
  else if isDigit c ∨ c.val = 45 then c :: rest.takeWhile isNumberByte
  else if c.val = 116 then c :: rest.take 3
  else if c.val = 102 then c :: rest.take 4
  else if c.val = 110 then c :: rest.take 3
  else [c]

/-- Go `json.Unmarshal(data, &s)` for a `string` variable `s` holding `""`:
the new value of `s`, or the error.  JSON `null` leaves `s` as it is. -/
def unmarshalString (data : Bytes) : Except JsonError Bytes :=
  if ¬ checkValid data then .error .malformed
  else match skipSpace data with
    | [] => .error .desync
    | c :: rest =>
      if c.val = 91 then .error (.mismatch "array")
      else if c.val = 123 then .error (.mismatch "object")
      else
        let item := literalItem c rest
        if c.val = 110 then .ok []
        else if c.val = 116 ∨ c.val = 102 then .error (.mismatch "bool")
        else if c.val = 34 then
          match unquoteBytes item with
          | none => .error .desync
          | some s => .ok s
        else if c.val ≠ 45 ∧ (c.val < 48 ∨ c.val > 57) then .error .desync
        else .error (.mismatch "number")

/-- Go `json.Unmarshal(data, &n)` for an `int` variable `n` holding `0`: the
new value of `n`, or the error.  JSON `null` leaves `n` as it is; a number is
stored when `strconv.ParseInt(item, 10, 64)` accepts it (`OverflowInt` is
always false for a 64-bit `int`). -/
def unmarshalInt (data : Bytes) : Except JsonError Int :=
  if ¬ checkValid data then .error .malformed
  else match skipSpace data with
    | [] => .error .desync
    | c :: rest =>
      if c.val = 91 then .error (.mismatch "array")
      else if c.val = 123 then .error (.mismatch "object")
      else
        let item := literalItem c rest
        if c.val = 110 then .ok 0
        else if c.val = 116 ∨ c.val = 102 then .error (.mismatch "bool")
        else if c.val = 34 then
          match unquoteBytes item with
          | none => .error .desync
          | some _ => .error (.mismatch "string")
        else if c.val ≠ 45 ∧ (c.val < 48 ∨ c.val > 57) then .error .desync
        else match parseInt item with
          | (n, none) => .ok n
          | (_, some _) => .error (.mismatch "number")

/-! ## `parsePort` (`main.go`) -/

/-- The errors of `parsePort`: the error of `strconv.Atoi`, or
`unable to parse port` carrying the raw input. -/
inductive PortError
  | atoi (e : NumError)
  | unparseable (raw : Bytes)
  deriving DecidableEq, Repr

/-- Go `parsePort`: first decode `raw` as a JSON string and return what
`strconv.Atoi` makes of it; failing that decode it as an `int`; failing that
return the `unable to parse port` error. -/
def parsePort (raw : Bytes) : Except PortError Int :=
  match unmarshalString raw with
  | .ok portString =>
    match atoi portString with
    | .ok n => .ok n
    | .error e => .error (.atoi e)
  | .error _ =>
    match unmarshalInt raw with
    | .ok portInt => .ok portInt
    | .error _ => .error (.unparseable raw)

/-! ## Decimal rendering (`%d`, `strconv.Itoa`) -/

/-- The decimal digits of `n`, most significant first; `fuel` bounds the
number of digits. -/
def natDigitsFuel : Nat → Nat → Bytes
  | 0, _ => []
  | fuel + 1, n =>
    if n < 10 then [Fin.ofNat (48 + n)]
    else natDigitsFuel fuel (n / 10) ++ [Fin.ofNat (48 + n % 10)]

/-- The decimal digits of a natural number (`"0"` for zero, no leading zeros). -/
def natDigits (n : Nat) : Bytes := natDigitsFuel (n + 1) n

/-- The base-10 rendering of an integer, as `strconv.Itoa` and the verb `%d`
produce it: a minus sign for a negative number, then the digits. -/
def decimal (n : Int) : Bytes :=
  if n < 0 then 45 :: natDigits n.natAbs else natDigits n.natAbs

/-- A JSON string literal with the given content placed between double quotes
(no escaping). -/
def quoted (s : Bytes) : Bytes := 34 :: (s ++ [34])

/-! ## Responses and the pagination loops of `main` -/

/-- Go `SubdomainResponse` and `CertificateResponse`: the paged envelope, with
records of type `α`. -/
structure Response (α : Type) where
  count : Int
  data : List α
  page : Int
  pageSize : Int
  totalPages : Int

/-- Go `CertificateData`; `port` is the `json.RawMessage`. -/
structure CertificateData where
  ip : Bytes
  port : Bytes
  subjectCN : Bytes
  subjectOrg : Bytes
  timestamp : Bytes
  deriving DecidableEq, Repr

/-- Go `SubdomainResponse`. -/
abbrev SubdomainResponse := Response Bytes

/-- Go `CertificateResponse`. -/
abbrev CertificateResponse := Response CertificateData

/-- How a pagination loop ends: with the accumulated records, or in
`log.Fatalf` on the first page or on a later page. -/
inductive Fetched (ε α : Type)
  | all (records : List α)
  | fatalFirst (err : ε)
  | fatalPage (page : Int) (err : ε)
  deriving DecidableEq, Repr

/-- What a pagination loop did: the page numbers it requested, in order of the
requests, and how it ended. -/
structure Paged (ε α : Type) where
  requested : List Int
  result : Fetched ε α
  deriving DecidableEq, Repr

/-- The loop `for page := 2; page <= initialResponse.TotalPages; page++` of
`main`, from the state `page`, `requested`, `all`; `fetch page` stands for
`fetchCertificates(apiURL, *apiKey, query, page, queryType)`, respectively
`fetchSubdomains(apiURL, *apiKey, query, page)`.  One unit of `fuel` is used
per test of the loop condition; `none` when the fuel runs out. -/
def pageLoop {ε α : Type} (fetch : Int → Except ε (Response α)) (totalPages : Int) :
    Nat → Int → List Int → List α → Option (Paged ε α)
  | 0, _, _, _ => none
  | fuel + 1, page, requested, all =>
    if page ≤ totalPages then
      match fetch page with
      | .error err => some { requested := requested ++ [page], result := .fatalPage page err }
      | .ok response =>
        pageLoop fetch totalPages fuel (wrap64 (page + 1)) (requested ++ [page])
          (all ++ response.data)
    else some { requested := requested, result := .all all }

/-- The fetch of page 1 followed by the loop over the pages from 2. -/
def fetchPages {ε α : Type} (fetch : Int → Except ε (Response α)) (fuel : Nat) :
    Option (Paged ε α) :=
  match fetch 1 with
  | .error err => some { requested := [1], result := .fatalFirst err }
  | .ok initialResponse =>
    pageLoop fetch initialResponse.totalPages fuel 2 [1] ([] ++ initialResponse.data)

/-! ## Output -/

/-- A line of the standard logger. -/
inductive LogLine (ε : Type)
  | fetchFailed (err : ε)
  | fetchPageFailed (page : Int) (err : ε)
  | portFailed (ip : Bytes) (err : PortError)
  deriving DecidableEq, Repr

/-- What a branch of `main` did: the pages requested, the writes to standard
output, the lines logged, and whether it ended in `log.Fatalf` (exit status 1). -/
structure Run (ε : Type) where
  requested : List Int
  stdout : List Bytes
  log : List (LogLine ε)
  fatal : Bool
  deriving DecidableEq, Repr

/-- The loop `for _, certificate := range allCertificates` of `main`, from the
output written so far: `fmt.Printf("%s:%d\n", certificate.IP, port)` for a
port that parses, a log line and `continue` for one that does not. -/
def printCertificates {ε : Type} :
    List CertificateData → List Bytes × List (LogLine ε) → List Bytes × List (LogLine ε)
  | [], out => out
  | certificate :: rest, (stdout, log) =>
    match parsePort certificate.port with
    | .error err => printCertificates rest (stdout, log ++ [.portFailed certificate.ip err])
    | .ok port =>
      printCertificates rest (stdout ++ [certificate.ip ++ 58 :: decimal port ++ [10]], log)

/-- The loop `for _, subdomain := range allSubdomains` of `main`:
`fmt.Println(subdomain)`. -/
def printSubdomains : List Bytes → List Bytes → List Bytes
  | [], stdout => stdout
  | subdomain :: rest, stdout => printSubdomains rest (stdout ++ [subdomain ++ [10]])

/-- The certificate branch of `main`: fetch all pages, then print. -/
def certificateBranch {ε : Type} (fetchCertificates : Int → Except ε CertificateResponse)
    (fuel : Nat) : Option (Run ε) :=
  match fetchPages fetchCertificates fuel with
  | none => none
  | some { requested := req, result := .fatalFirst err } =>
    some { requested := req, stdout := [], log := [.fetchFailed err], fatal := true }
  | some { requested := req, result := .fatalPage page err } =>
    some { requested := req, stdout := [], log := [.fetchPageFailed page err], fatal := true }
  | some { requested := req, result := .all allCertificates } =>
    let out := printCertificates allCertificates ([], [])
    some { requested := req, stdout := out.1, log := out.2, fatal := false }

/-- The subdomain branch of `main`: fetch all pages, then print. -/
def subdomainBranch {ε : Type} (fetchSubdomains : Int → Except ε SubdomainResponse)
    (fuel : Nat) : Option (Run ε) :=
  match fetchPages fetchSubdomains fuel with
  | none => none
  | some { requested := req, result := .fatalFirst err } =>
    some { requested := req, stdout := [], log := [.fetchFailed err], fatal := true }
  | some { requested := req, result := .fatalPage page err } =>
    some { requested := req, stdout := [], log := [.fetchPageFailed page err], fatal := true }
  | some { requested := req, result := .all allSubdomains } =>
    some { requested := req, stdout := printSubdomains allSubdomains [], log := [],
           fatal := false }

/-! ## Flags, mode selection and request bodies -/

/-- The two `log.Fatal` exits of the flag checks of `main`. -/
inductive FlagError
  | invalidCombination
  | nothingToQuery
  deriving DecidableEq, Repr

/-- The flag checks of `main` on `*domain`, `*orgName` and `*useCN`. -/
def checkFlags (domain orgName : Bytes) (useCN : Bool) : Except FlagError Unit :=
  if (domain ≠ [] ∧ orgName ≠ []) ∨ (useCN = true ∧ orgName ≠ [])
      ∨ (useCN = true ∧ domain = []) then
    .error .invalidCombination
  else if domain = [] ∧ orgName = [] then .error .nothingToQuery
  else .ok ()

/-- The three variables `apiURL`, `query`, `queryType` that `main` sets. -/
structure Mode where
  apiURL : String
  query : Bytes
  queryType : String
  deriving DecidableEq, Repr

/-- The `if *useCN ... else if *orgName != "" ... else ...` of `main`. -/
def selectMode (domain orgName : Bytes) (useCN : Bool) : Mode :=
  if useCN = true then
    { apiURL := "https://api.rsecloud.com/api/v1/searchCertificatesByDomain",
      query := domain, queryType := "domain" }
  else if orgName ≠ [] then
    { apiURL := "https://api.rsecloud.com/api/v1/searchCertificatesByOrgName",
      query := orgName, queryType := "org" }
  else
    { apiURL := "https://api.rsecloud.com/api/v1/subdomains",
      query := domain, queryType := "domain" }

/-- The two branches of `main` after mode selection. -/
inductive Branch
  | certificates | subdomains
  deriving DecidableEq, Repr

/-- The test `if queryType != "domain" || *useCN` of `main`. -/
def selectBranch (m : Mode) (useCN : Bool) : Branch :=
  if m.queryType ≠ "domain" ∨ useCN = true then .certificates else .subdomains

/-- The request body of `fetchSubdomains`:
`fmt.Sprintf("\x7b\"domain\":\"%s\"\x7d", domain)`. -/
def subdomainPayload (domain : Bytes) : Bytes :=
  bytes "\x7b\"domain\":\"" ++ domain ++ bytes "\"\x7d"

/-- The request body of `fetchCertificates`; `none` is the nil reader left
when `queryType` is neither `"domain"` nor `"org"`. -/
def certificatePayload (query : Bytes) (queryType : String) : Option Bytes :=
  if queryType = "domain" then some (bytes "\x7b\"domain\":\"" ++ query ++ bytes "\"\x7d")
  else if queryType = "org" then some (bytes "\x7b\"org_name\":\"" ++ query ++ bytes "\"\x7d")
  else none

/-! ## Example servers -/

/-- The end-to-end scenario of the specification: page 1 holds two subdomains
and reports two pages, page 2 holds one subdomain; no other page exists. -/
def examplePages : Int → Except Unit SubdomainResponse := fun p =>
  if p = 1 then
    .ok { count := 3, data := [bytes "a.example.com", bytes "b.example.com"], page := 1,
          pageSize := 2, totalPages := 2 }
  else if p = 2 then
    .ok { count := 3, data := [bytes "c.example.com"], page := 2, pageSize := 2,
          totalPages := 2 }
  else .error ()

/-- A server that answers every page with one subdomain and `total_pages = 0`. -/
def zeroPages : Int → Except Unit SubdomainResponse := fun p =>
  .ok { count := 1, data := [bytes "a.example.com"], page := p, pageSize := 1, totalPages := 0 }

/-- A server that answers every page with one subdomain and reports the
largest `int` as `total_pages`. -/
def maxPages : Int → Except Unit SubdomainResponse := fun p =>
  .ok { count := 1, data := [bytes "a.example.com"], page := p, pageSize := 1,
        totalPages := 2 ^ 63 - 1 }

/-- A server that answers page 1, reporting three pages, and fails on every
other page. -/
def failingPages : Int → Except Unit SubdomainResponse := fun p =>
  if p = 1 then
    .ok { count := 3, data := [bytes "a.example.com"], page := 1, pageSize := 1,
          totalPages := 3 }
  else .error ()

/-- The same for certificates: page 1 holds one record and reports three
pages, every other page fails. -/
def failingCertificatePages : Int → Except Unit CertificateResponse := fun p =>
  if p = 1 then
    .ok { count := 3,
          data := [{ ip := bytes "1.2.3.4", port := bytes "\"443\"", subjectCN := [],
                     subjectOrg := [], timestamp := [] }],
          page := 1, pageSize := 1, totalPages := 3 }
  else .error ()

/-! ## Specification-side notions -/

/-- The page numbers `first, first + 1, ...`, `k` of them. -/
def pagesFrom (first : Int) : Nat → List Int
  | 0 => []
  | k + 1 => first :: pagesFrom (first + 1) k

/-- The page numbers `1, 2, ..., T` (none when `T < 1`). -/
def pagesUpTo (T : Int) : List Int := pagesFrom 1 T.toNat

/-- The records of page `p` under `fetch` (none when the fetch fails). -/
def pageData {ε α : Type} (fetch : Int → Except ε (Response α)) (p : Int) : List α :=
  match fetch p with
  | .ok response => response.data
  | .error _ => []

/-- The rest of `checkValid` from the scanner state `s`: the remaining bytes
are scanned without error and `eof` accepts. -/
def accepts (s : Scanner) (data : Bytes) : Bool :=
  match scanAll s data with
  | none => false
  | some s1 => s1.eof != .error

/-- The scanner at top level (empty parse stack, no error) in step `k`. -/
def scannerAt (k : Step) : Scanner :=
  { step := k, parseState := [], err := false, endTop := false }

/-- The scanner after a complete top-level value. -/
def scannerDone : Scanner :=
  { step := .endTop, parseState := [], err := false, endTop := true }

/-- The value of a run of decimal digits read from the accumulator `acc`. -/
def digitsValue (acc : Nat) (s : Bytes) : Nat :=
  s.foldl (fun a c => a * 10 + (c.val - 48)) acc

/-- A base-10 integer: an optional sign `+` or `-`, then one or more decimal
digits. -/
def isBase10Integer : Bytes → Bool
  | [] => false
  | c :: cs =>
    if c.val = 43 ∨ c.val = 45 then !cs.isEmpty && cs.all isDigit
    else (c :: cs).all isDigit

/-- An unsigned JSON integer literal: `0`, or a digit from 1 to 9 followed by
digits. -/
def isNaturalLiteral : Bytes → Bool
  | [] => false
  | c :: cs =>
    if c.val = 48 then cs.isEmpty
    else decide (49 ≤ c.val ∧ c.val ≤ 57) && cs.all isDigit

/-- A JSON integer literal: an optional minus sign, then an unsigned integer
literal (no fraction, no exponent). -/
def isIntegerLiteral : Bytes → Bool
  | [] => false
  | c :: cs => if c.val = 45 then isNaturalLiteral cs else isNaturalLiteral (c :: cs)

/-- The raw message is a native JSON integer: after leading white space, the
run of bytes up to the next white space is an integer literal, and only white
space follows. -/
def isNativeInteger (raw : Bytes) : Bool :=
  let body := skipSpace raw
  isIntegerLiteral (body.takeWhile (fun c => !isSpace c))
    && (body.dropWhile (fun c => !isSpace c)).all isSpace

/-- The content of the raw message when it is a JSON string: the message is
valid JSON, its value starts with a double quote, and the content is what the
decoder unquotes. -/
def stringContent (raw : Bytes) : Option Bytes :=
  if checkValid raw then
    match skipSpace raw with
    | [] => none
    | c :: rest => if c.val = 34 then unquoteBytes (literalItem c rest) else none
  else none

/-- The body of a JSON string literal as the scanner accepts it: bytes from
0x20 up other than the quote and the backslash, the two-byte escapes, and
`\u` with four hexadecimal digits. -/
def isStringBody : Bytes → Bool
  | [] => true
  | c :: cs =>
    if c.val = 92 then
      match cs with
      | [] => false
      | e :: rest =>
        if e.val = 98 ∨ e.val = 102 ∨ e.val = 110 ∨ e.val = 114 ∨ e.val = 116 ∨ e.val = 92
            ∨ e.val = 47 ∨ e.val = 34 then isStringBody rest
        else if e.val = 117 then
          match rest with
          | h1 :: h2 :: h3 :: h4 :: rest2 =>
            isHex h1 && isHex h2 && isHex h3 && isHex h4 && isStringBody rest2
          | _ => false
        else false
    else if c.val = 34 ∨ c.val < 32 then false
    else isStringBody cs

/-- The output line of one certificate record: `ip:port` and a line feed for a
port that parses, nothing otherwise. -/
def certificateLine (c : CertificateData) : Option Bytes :=
  match parsePort c.port with
  | .ok port => some (c.ip ++ bytes ":" ++ decimal port ++ bytes "\n")
  | .error _ => none

/-- The log line of one certificate record: one for a port that fails to parse. -/
def certificateWarning {ε : Type} (c : CertificateData) : Option (LogLine ε) :=
  match parsePort c.port with
  | .ok _ => none
  | .error err => some (.portFailed c.ip err)

end Rsescan

namespace Rsescan

/-! ## Flags and mode selection -/

/-- C6: the flag checks of `main` reject a triple exactly when domain and
organisation are both given, or the certificate toggle comes with an
organisation, or the certificate toggle comes without a domain, or neither
domain nor organisation is given; the accepted triples are exactly domain-only,
domain with the certificate toggle, and organisation-only. -/
theorem checkFlags_rejects_iff (domain orgName : Bytes) (useCN : Bool) :
    (checkFlags domain orgName useCN ≠ .ok () ↔
      ((domain ≠ [] ∧ orgName ≠ []) ∨ (useCN = true ∧ orgName ≠ [])
        ∨ (useCN = true ∧ domain = []) ∨ (domain = [] ∧ orgName = []))) ∧
    (checkFlags domain orgName useCN = .ok () ↔
      ((domain ≠ [] ∧ orgName = [] ∧ useCN = false)
        ∨ (domain ≠ [] ∧ orgName = [] ∧ useCN = true)
        ∨ (domain = [] ∧ orgName ≠ [] ∧ useCN = false))) := by
  unfold checkFlags
  by_cases hd : domain = [] <;> by_cases ho : orgName = [] <;> cases useCN <;> simp [hd, ho]

/-- C7: for a flag triple that passes the checks, a domain without the
certificate toggle selects the subdomain endpoint, the domain as query and the
subdomain branch; a domain with the toggle selects the certificate-by-domain
endpoint, the domain as query, query type `domain` and the certificate branch;
an organisation selects the certificate-by-organisation endpoint, the
organisation as query, query type `org` and the certificate branch; and the
certificate branch always runs with query type `domain` or `org`. -/
theorem selectMode_of_valid (domain orgName : Bytes) (useCN : Bool)
    (hvalid : checkFlags domain orgName useCN = .ok ()) :
    (domain ≠ [] → useCN = false →
      selectMode domain orgName useCN =
        { apiURL := "https://api.rsecloud.com/api/v1/subdomains", query := domain,
          queryType := "domain" } ∧
      selectBranch (selectMode domain orgName useCN) useCN = .subdomains) ∧
    (domain ≠ [] → useCN = true →
      selectMode domain orgName useCN =
        { apiURL := "https://api.rsecloud.com/api/v1/searchCertificatesByDomain",
          query := domain, queryType := "domain" } ∧
      selectBranch (selectMode domain orgName useCN) useCN = .certificates) ∧
    (orgName ≠ [] →
      selectMode domain orgName useCN =
        { apiURL := "https://api.rsecloud.com/api/v1/searchCertificatesByOrgName",
          query := orgName, queryType := "org" } ∧
      selectBranch (selectMode domain orgName useCN) useCN = .certificates) ∧
    (selectBranch (selectMode domain orgName useCN) useCN = .certificates →
      (selectMode domain orgName useCN).queryType = "domain"
        ∨ (selectMode domain orgName useCN).queryType = "org") := by
  unfold checkFlags at hvalid
  by_cases hd : domain = [] <;> by_cases ho : orgName = [] <;> cases useCN <;>
    simp [hd, ho] at hvalid <;> simp [selectMode, selectBranch, hd, ho]

/-- Witness for C7: the triple `-d example.com -cn`. -/
theorem selectMode_of_valid_witness :
    checkFlags (bytes "example.com") [] true = .ok () ∧
    selectBranch (selectMode (bytes "example.com") [] true) true = .certificates :=
  ⟨by decide, ((selectMode_of_valid (bytes "example.com") [] true (by decide)).2.1
    (by decide) rfl).2⟩

end Rsescan

namespace Rsescan

/-! ## Pagination -/

theorem wrap64_of_range (x : Int) (h1 : -(2 ^ 63) ≤ x) (h2 : x < 2 ^ 63) : wrap64 x = x := by
  unfold wrap64
  omega

theorem pagesFrom_succ_last (first : Int) (k : Nat) :
    pagesFrom first (k + 1) = pagesFrom first k ++ [first + k] := by
  induction k generalizing first with
  | zero => simp [pagesFrom]
  | succ k ih =>
    rw [pagesFrom, ih (first + 1)]
    simp only [pagesFrom, List.cons_append, Nat.cast_succ]
    have h : first + 1 + (k : Int) = first + (k + 1) := by omega
    rw [h]

theorem mem_pagesFrom (first : Int) (k : Nat) (p : Int) :
    p ∈ pagesFrom first k ↔ first ≤ p ∧ p < first + k := by
  induction k generalizing first with
  | zero => simp [pagesFrom]
  | succ k ih =>
    simp only [pagesFrom, List.mem_cons, ih, Nat.cast_succ]
    omega

theorem pagesFrom_pairwise (first : Int) (k : Nat) :
    (pagesFrom first k).Pairwise (· < ·) := by
  induction k generalizing first with
  | zero => simp [pagesFrom]
  | succ k ih =>
    simp only [pagesFrom, List.pairwise_cons]
    refine ⟨fun q hq => ?_, ih _⟩
    rw [mem_pagesFrom] at hq
    omega

/-- The loop over the pages `page, ..., T` when every fetch succeeds. -/
theorem pageLoop_all {ε α : Type} (fetch : Int → Except ε (Response α)) (T : Int)
    (hT : T < 2 ^ 63 - 1) (k : Nat) :
    ∀ (fuel : Nat) (page : Int) (requested : List Int) (all : List α),
      0 ≤ page → (T + 1 - page).toNat = k → k < fuel →
      (∀ q, page ≤ q → q ≤ T → ∃ r, fetch q = .ok r) →
      pageLoop fetch T fuel page requested all =
        some { requested := requested ++ pagesFrom page k,
               result := .all (all ++ (pagesFrom page k).flatMap (pageData fetch)) } := by
  induction k with
  | zero =>
    intro fuel page requested all _ hk hfuel _
    obtain ⟨fuel, rfl⟩ : ∃ f, fuel = f + 1 := ⟨fuel - 1, by omega⟩
    have hgt : ¬ page ≤ T := by omega
    simp [pageLoop, hgt, pagesFrom]
  | succ k ih =>
    intro fuel page requested all hpage hk hfuel hok
    obtain ⟨fuel, rfl⟩ : ∃ f, fuel = f + 1 := ⟨fuel - 1, by omega⟩
    have hle : page ≤ T := by omega
    obtain ⟨r, hr⟩ := hok page (le_refl _) hle
    have hw : wrap64 (page + 1) = page + 1 := wrap64_of_range _ (by omega) (by omega)
    rw [pageLoop, if_pos hle, hr]
    simp only [hw]
    rw [ih fuel (page + 1) _ _ (by omega) (by omega) (by omega)
      (fun q h1 h2 => hok q (by omega) h2)]
    simp [pagesFrom, pageData, hr]

/-- The loop over the pages from `page` when the fetch of `p` is the first to fail. -/
theorem pageLoop_fail {ε α : Type} (fetch : Int → Except ε (Response α)) (T p : Int) (err : ε)
    (hp : p < 2 ^ 63) (hpT : p ≤ T) (herr : fetch p = .error err) (k : Nat) :
    ∀ (fuel : Nat) (page : Int) (requested : List Int) (all : List α),
      0 ≤ page → page + k = p → k < fuel →
      (∀ q, page ≤ q → q < p → ∃ r, fetch q = .ok r) →
      pageLoop fetch T fuel page requested all =
        some { requested := requested ++ pagesFrom page (k + 1),
               result := .fatalPage p err } := by
  induction k with
  | zero =>
    intro fuel page requested all _ hk hfuel _
    obtain ⟨fuel, rfl⟩ : ∃ f, fuel = f + 1 := ⟨fuel - 1, by omega⟩
    have hpage : page = p := by omega
    subst hpage
    simp [pageLoop, hpT, herr, pagesFrom]
  | succ k ih =>
    intro fuel page requested all hpage hk hfuel hok
    obtain ⟨fuel, rfl⟩ : ∃ f, fuel = f + 1 := ⟨fuel - 1, by omega⟩
    have hle : page ≤ T := by omega
    obtain ⟨r, hr⟩ := hok page (le_refl _) (by omega)
    have hw : wrap64 (page + 1) = page + 1 := wrap64_of_range _ (by omega) (by omega)
    rw [pageLoop, if_pos hle, hr]
    simp only [hw]
    rw [ih fuel (page + 1) _ _ (by omega) (by omega) (by omega)
      (fun q h1 h2 => hok q (by omega) h2)]
    simp [pagesFrom]

/-- With `total_pages` the largest `int`, the loop condition `page <= totalPages`
holds for every `int`, so the loop never ends while the fetches succeed. -/
theorem pageLoop_maxInt_never_ends {ε α : Type} (fetch : Int → Except ε (Response α))
    (hok : ∀ q, ∃ r, fetch q = .ok r) (fuel : Nat) :
    ∀ (page : Int) (requested : List Int) (all : List α),
      -(2 ^ 63) ≤ page → page < 2 ^ 63 →
      pageLoop fetch (2 ^ 63 - 1) fuel page requested all = none := by
  induction fuel with
  | zero => intro page requested all _ _; rfl
  | succ fuel ih =>
    intro page requested all h1 h2
    obtain ⟨r, hr⟩ := hok page
    have hle : page ≤ 2 ^ 63 - 1 := by omega
    rw [pageLoop, if_pos hle, hr]
    simp only
    apply ih
    · unfold wrap64; omega
    · unfold wrap64; omega

end Rsescan

namespace Rsescan

theorem pagesUpTo_max (T : Int) : pagesUpTo (max T 1) = 1 :: pagesFrom 2 (T + 1 - 2).toNat := by
  unfold pagesUpTo
  obtain ⟨k, hk⟩ : ∃ k, (max T 1).toNat = k + 1 := ⟨(max T 1).toNat - 1, by omega⟩
  have hk2 : (T + 1 - 2).toNat = k := by omega
  rw [hk, hk2, pagesFrom]
  rfl

/-- The fetch of page 1 and the loop when every requested fetch succeeds. -/
theorem fetchPages_all {ε α : Type} (fetch : Int → Except ε (Response α)) (r1 : Response α)
    (h1 : fetch 1 = .ok r1)
    (hok : ∀ p, 2 ≤ p → p ≤ r1.totalPages → ∃ r, fetch p = .ok r)
    (hT : r1.totalPages < 2 ^ 63 - 1) (fuel : Nat) (hfuel : r1.totalPages.toNat < fuel) :
    fetchPages fetch fuel =
      some { requested := pagesUpTo (max r1.totalPages 1),
             result := .all ((pagesUpTo (max r1.totalPages 1)).flatMap (pageData fetch)) } := by
  unfold fetchPages
  rw [h1]
  simp only
  rw [pageLoop_all fetch r1.totalPages hT (r1.totalPages + 1 - 2).toNat fuel 2 _ _
    (by omega) rfl (by omega) hok]
  rw [pagesUpTo_max]
  simp [pageData, h1]

/-- The fetch of page 1 and the loop when the fetch of page `p` is the first to fail. -/
theorem fetchPages_fail {ε α : Type} (fetch : Int → Except ε (Response α)) (p : Int) (err : ε)
    (hp1 : 1 ≤ p) (hp : p < 2 ^ 63) (herr : fetch p = .error err)
    (hok : ∀ q, 1 ≤ q → q < p → ∃ r, fetch q = .ok r)
    (hreq : p = 1 ∨ ∃ r1, fetch 1 = .ok r1 ∧ p ≤ r1.totalPages)
    (fuel : Nat) (hfuel : p.toNat ≤ fuel) :
    ∃ res, fetchPages fetch fuel = some { requested := pagesUpTo p, result := res } ∧
      ∀ records, res ≠ .all records := by
  by_cases h : p = 1
  · subst h
    refine ⟨.fatalFirst err, ?_, by simp⟩
    unfold fetchPages
    rw [herr]
    rfl
  · obtain ⟨r1, h1, hle⟩ := hreq.resolve_left h
    refine ⟨.fatalPage p err, ?_, by simp⟩
    unfold fetchPages
    rw [h1]
    simp only
    obtain ⟨k, hk⟩ : ∃ k : Nat, (2 : Int) + k = p := ⟨(p - 2).toNat, by omega⟩
    rw [pageLoop_fail fetch r1.totalPages p err hp hle herr k fuel 2 _ _ (by omega) hk
      (by omega) (fun q h2 h3 => hok q (by omega) h3)]
    have hp' : p.toNat = k + 1 + 1 := by omega
    unfold pagesUpTo
    rw [hp']
    rfl

/-- C3 (amended): when every requested page is fetched and page 1 reports
`total_pages = T` below the largest `int`, the pagination loop returns, and the
collection it has accumulated is the data of the pages `1, 2, ..., max(T, 1)`
in ascending page order, each page's records in their own order, nothing
dropped, duplicated or reordered. -/
theorem fetchPages_concat {ε α : Type} (fetch : Int → Except ε (Response α)) (r1 : Response α)
    (h1 : fetch 1 = .ok r1)
    (hok : ∀ p, 2 ≤ p → p ≤ r1.totalPages → ∃ r, fetch p = .ok r)
    (hT : r1.totalPages < 2 ^ 63 - 1) (fuel : Nat) (hfuel : r1.totalPages.toNat < fuel) :
    ∃ requested, fetchPages fetch fuel =
      some { requested := requested,
             result := .all ((pagesUpTo (max r1.totalPages 1)).flatMap (pageData fetch)) } :=
  ⟨_, fetchPages_all fetch r1 h1 hok hT fuel hfuel⟩

/-- Witness for C3: the two-page scenario of the specification. -/
theorem fetchPages_concat_witness :
    examplePages 1 = .ok { count := 3, data := [bytes "a.example.com", bytes "b.example.com"],
                           page := 1, pageSize := 2, totalPages := 2 } ∧
    ∃ requested, fetchPages examplePages 3 =
      some { requested := requested,
             result := .all ((pagesUpTo (max 2 1)).flatMap (pageData examplePages)) } :=
  ⟨rfl, fetchPages_concat examplePages _ rfl
    (fun p h2 h3 => by
      have hp : p = 2 := le_antisymm h3 h2
      subst hp
      exact ⟨_, rfl⟩)
    (by decide) 3 (by decide)⟩

/-- Counterexample for C3 as stated: with `total_pages = 0` on page 1 the loop
returns the data of page 1, which is not the concatenation over the pages
`1..0`; and with `total_pages` the largest `int` the loop never returns. -/
theorem fetchPages_concat_counterexample :
    (∀ p, ∃ r, zeroPages p = .ok r) ∧
    fetchPages zeroPages 1 =
      some { requested := [1], result := .all [bytes "a.example.com"] } ∧
    (pagesUpTo 0).flatMap (pageData zeroPages) = [] ∧
    (∀ p, ∃ r, maxPages p = .ok r) ∧
    (∀ fuel, fetchPages maxPages fuel = none) :=
  ⟨fun _ => ⟨_, rfl⟩, by decide, by decide, fun _ => ⟨_, rfl⟩, fun fuel =>
    pageLoop_maxInt_never_ends maxPages (fun _ => ⟨_, rfl⟩) fuel 2 _ _ (by decide) (by decide)⟩

/-- C4 (amended): when every requested page is fetched and page 1 reports
`total_pages = T` below the largest `int`, the pages requested are exactly
`1, 2, ..., max(T, 1)`: strictly ascending, starting at 1, ending with
`max(T, 1)` (that is `T` when `T ≥ 1`, and page 1 alone when `T ≤ 0`), never
page 0 and never beyond `max(T, 1)`; the list depends on the responses through
the `total_pages` of page 1 only. -/
theorem fetchPages_requested {ε α : Type} (fetch : Int → Except ε (Response α))
    (r1 : Response α) (h1 : fetch 1 = .ok r1)
    (hok : ∀ p, 2 ≤ p → p ≤ r1.totalPages → ∃ r, fetch p = .ok r)
    (hT : r1.totalPages < 2 ^ 63 - 1) (fuel : Nat) (hfuel : r1.totalPages.toNat < fuel) :
    ∃ run, fetchPages fetch fuel = some run ∧
      run.requested = pagesUpTo (max r1.totalPages 1) ∧
      run.requested.Pairwise (· < ·) ∧
      run.requested.head? = some 1 ∧
      run.requested.getLast? = some (max r1.totalPages 1) ∧
      ∀ p ∈ run.requested, p ≠ 0 ∧ 1 ≤ p ∧ p ≤ max r1.totalPages 1 := by
  refine ⟨_, fetchPages_all fetch r1 h1 hok hT fuel hfuel, rfl, ?_, ?_, ?_, ?_⟩
  · exact pagesFrom_pairwise _ _
  · rw [pagesUpTo_max]; rfl
  · show (pagesUpTo (max r1.totalPages 1)).getLast? = _
    unfold pagesUpTo
    obtain ⟨k, hk⟩ : ∃ k, (max r1.totalPages 1).toNat = k + 1 :=
      ⟨(max r1.totalPages 1).toNat - 1, by omega⟩
    rw [hk, pagesFrom_succ_last]
    simp only [List.getLast?_append, List.getLast?_singleton, Option.some.injEq]
    simp
    omega
  · intro p hp
    have hp' : p ∈ pagesUpTo (max r1.totalPages 1) := hp
    unfold pagesUpTo at hp'
    rw [mem_pagesFrom] at hp'
    omega

/-- Witness for C4: the two-page scenario of the specification. -/
theorem fetchPages_requested_witness :
    examplePages 1 = .ok { count := 3, data := [bytes "a.example.com", bytes "b.example.com"],
                           page := 1, pageSize := 2, totalPages := 2 } ∧
    ∃ run, fetchPages examplePages 3 = some run ∧
      run.requested = pagesUpTo (max 2 1) ∧
      run.requested.Pairwise (· < ·) ∧
      run.requested.head? = some 1 ∧
      run.requested.getLast? = some (max 2 1) ∧
      ∀ p ∈ run.requested, p ≠ 0 ∧ 1 ≤ p ∧ p ≤ max 2 1 :=
  ⟨rfl, fetchPages_requested examplePages _ rfl
    (fun p h2 h3 => by
      have hp : p = 2 := le_antisymm h3 h2
      subst hp
      exact ⟨_, rfl⟩)
    (by decide) 3 (by decide)⟩

/-- Counterexample for C4 as stated: with `total_pages = 0` on page 1 the loop
requests page 1, which is greater than `total_pages` and is the last page
requested; and with `total_pages` the largest `int` the loop never ends. -/
theorem fetchPages_requested_counterexample :
    (∀ p, ∃ r, zeroPages p = .ok r) ∧
    (∃ run, fetchPages zeroPages 1 = some run ∧ run.requested = [1] ∧
      run.requested.getLast? ≠ some 0 ∧ ∃ p ∈ run.requested, (0 : Int) < p) ∧
    (∀ p, ∃ r, maxPages p = .ok r) ∧
    (∀ fuel, fetchPages maxPages fuel = none) :=
  ⟨fun _ => ⟨_, rfl⟩, ⟨_, rfl, rfl, by decide, 1, by decide, by decide⟩,
    fun _ => ⟨_, rfl⟩, fun fuel =>
    pageLoop_maxInt_never_ends maxPages (fun _ => ⟨_, rfl⟩) fuel 2 _ _ (by decide) (by decide)⟩

/-- C5: when the fetch of a requested page `p` fails and all earlier pages were
fetched, both branches of `main` end in `log.Fatalf`, have requested exactly
the pages `1, ..., p` (none after `p`), and have written nothing to standard
output: the records of the pages before `p` are discarded. -/
theorem fetch_failure_is_fatal {ε : Type} (p : Int) (hp1 : 1 ≤ p) (hp : p < 2 ^ 63)
    (fuel : Nat) (hfuel : p.toNat ≤ fuel) :
    (∀ (fetch : Int → Except ε CertificateResponse) (err : ε),
      fetch p = .error err → (∀ q, 1 ≤ q → q < p → ∃ r, fetch q = .ok r) →
      (p = 1 ∨ ∃ r1, fetch 1 = .ok r1 ∧ p ≤ r1.totalPages) →
      ∃ log, certificateBranch fetch fuel =
        some { requested := pagesUpTo p, stdout := [], log := log, fatal := true }) ∧
    (∀ (fetch : Int → Except ε SubdomainResponse) (err : ε),
      fetch p = .error err → (∀ q, 1 ≤ q → q < p → ∃ r, fetch q = .ok r) →
      (p = 1 ∨ ∃ r1, fetch 1 = .ok r1 ∧ p ≤ r1.totalPages) →
      ∃ log, subdomainBranch fetch fuel =
        some { requested := pagesUpTo p, stdout := [], log := log, fatal := true }) := by
  constructor
  · intro fetch err herr hok hreq
    obtain ⟨res, hres, hne⟩ := fetchPages_fail fetch p err hp1 hp herr hok hreq fuel hfuel
    unfold certificateBranch
    rw [hres]
    cases res with
    | all records => exact absurd rfl (hne records)
    | fatalFirst e => exact ⟨_, rfl⟩
    | fatalPage q e => exact ⟨_, rfl⟩
  · intro fetch err herr hok hreq
    obtain ⟨res, hres, hne⟩ := fetchPages_fail fetch p err hp1 hp herr hok hreq fuel hfuel
    unfold subdomainBranch
    rw [hres]
    cases res with
    | all records => exact absurd rfl (hne records)
    | fatalFirst e => exact ⟨_, rfl⟩
    | fatalPage q e => exact ⟨_, rfl⟩

/-- Witness for C5: page 1 reports three pages and the fetch of page 2 fails. -/
theorem fetch_failure_is_fatal_witness :
    ((1 : Int) ≤ 2 ∧ (2 : Int) < 2 ^ 63 ∧ (2 : Int).toNat ≤ 2) ∧
    (∃ log, certificateBranch failingCertificatePages 2 =
      some { requested := pagesUpTo 2, stdout := [], log := log, fatal := true }) ∧
    (∃ log, subdomainBranch failingPages 2 =
      some { requested := pagesUpTo 2, stdout := [], log := log, fatal := true }) :=
  ⟨by decide,
    (fetch_failure_is_fatal 2 (by decide) (by decide) 2 (by decide)).1 failingCertificatePages ()
      rfl (fun q h1 h2 => by
        have hq : q = 1 := by omega
        subst hq
        exact ⟨_, rfl⟩) (Or.inr ⟨_, rfl, by decide⟩),
    (fetch_failure_is_fatal 2 (by decide) (by decide) 2 (by decide)).2 failingPages ()
      rfl (fun q h1 h2 => by
        have hq : q = 1 := by omega
        subst hq
        exact ⟨_, rfl⟩) (Or.inr ⟨_, rfl, by decide⟩)⟩

/-- C10: when page 1 reports `total_pages` at most 1 (1, 0 for an absent
field, or a negative value), the pagination loop performs exactly one fetch,
of page 1, and the accumulated result is exactly the data of page 1. -/
theorem fetchPages_single {ε α : Type} (fetch : Int → Except ε (Response α)) (r1 : Response α)
    (h1 : fetch 1 = .ok r1) (hT : r1.totalPages ≤ 1) (fuel : Nat) (hfuel : 1 ≤ fuel) :
    fetchPages fetch fuel = some { requested := [1], result := .all r1.data } := by
  obtain ⟨fuel, rfl⟩ : ∃ f, fuel = f + 1 := ⟨fuel - 1, by omega⟩
  have hgt : ¬ (2 : Int) ≤ r1.totalPages := by omega
  simp [fetchPages, h1, pageLoop, hgt]

/-- Witness for C10: a server reporting `total_pages = 0`. -/
theorem fetchPages_single_witness :
    ((0 : Int) ≤ 1 ∧ 1 ≤ 1) ∧
    fetchPages zeroPages 1 = some { requested := [1], result := .all [bytes "a.example.com"] } :=
  ⟨by decide, fetchPages_single zeroPages _ rfl (by decide) 1 (by decide)⟩

end Rsescan

namespace Rsescan

theorem checkValid_eq_accepts (data : Bytes) : checkValid data = accepts Scanner.reset data := rfl

theorem accepts_nil (s : Scanner) : accepts s [] = (s.eof != .error) := rfl

theorem accepts_cons (s : Scanner) (c : Byte) (cs : Bytes) :
    accepts s (c :: cs) = (if (s.run c).2 = .error then false else accepts (s.run c).1 cs) := by
  unfold accepts
  rw [scanAll]
  rcases h : s.run c with ⟨s1, sc⟩
  cases sc <;> simp

theorem accepts_failed (s : Scanner) (hs : s.step = .error) (he : s.err = true) (data : Bytes) :
    accepts s data = false := by
  cases data with
  | nil => simp [accepts_nil, Scanner.eof, he]
  | cons c cs => simp [accepts_cons, Scanner.run, hs]

theorem accepts_done (data : Bytes) : accepts scannerDone data = data.all isSpace := by
  induction data with
  | nil => rfl
  | cons c cs ih =>
    rw [accepts_cons]
    by_cases hc : isSpace c = true
    · simp [Scanner.run, scannerDone, stateEndTop, hc] at ih ⊢
      exact ih
    · simp only [Bool.not_eq_true] at hc
      simp [Scanner.run, scannerDone, stateEndTop, hc, Scanner.fail]
      exact accepts_failed _ rfl rfl cs

end Rsescan

namespace Rsescan

theorem reset_eq : Scanner.reset = scannerAt .beginValue := rfl

theorem isSpace_iff (c : Byte) :
    isSpace c = true ↔ (c.val = 32 ∨ c.val = 9 ∨ c.val = 13 ∨ c.val = 10) := by
  simp [isSpace, or_assoc]

theorem isDigit_iff (c : Byte) : isDigit c = true ↔ (48 ≤ c.val ∧ c.val ≤ 57) := by
  simp [isDigit]

theorem accepts_begin_space (c : Byte) (cs : Bytes) (hc : isSpace c = true) :
    accepts (scannerAt .beginValue) (c :: cs) = accepts (scannerAt .beginValue) cs := by
  rw [accepts_cons]
  simp [Scanner.run, scannerAt, stateBeginValue, hc]

theorem accepts_begin_skipSpace (data : Bytes) :
    accepts (scannerAt .beginValue) data = accepts (scannerAt .beginValue) (skipSpace data) := by
  induction data with
  | nil => rfl
  | cons c cs ih =>
    by_cases hc : isSpace c = true
    · rw [accepts_begin_space c cs hc, skipSpace, if_pos hc, ih]
    · rw [skipSpace, if_neg hc]

theorem accepts_begin_minus (c : Byte) (cs : Bytes) (hc : c.val = 45) :
    accepts (scannerAt .beginValue) (c :: cs) = accepts (scannerAt .neg) cs := by
  rw [accepts_cons]
  simp [Scanner.run, scannerAt, stateBeginValue, isSpace, hc]

theorem accepts_begin_zero (c : Byte) (cs : Bytes) (hc : c.val = 48) :
    accepts (scannerAt .beginValue) (c :: cs) = accepts (scannerAt .zero) cs := by
  rw [accepts_cons]
  simp [Scanner.run, scannerAt, stateBeginValue, isSpace, hc]

theorem accepts_begin_nonzero (c : Byte) (cs : Bytes) (hc : 49 ≤ c.val ∧ c.val ≤ 57) :
    accepts (scannerAt .beginValue) (c :: cs) = accepts (scannerAt .one) cs := by
  rw [accepts_cons]
  have h1 : isSpace c = false := by
    rw [← Bool.not_eq_true, isSpace_iff]; omega
  have h2 : c.val ≠ 123 := by omega
  have h3 : c.val ≠ 91 := by omega
  have h4 : c.val ≠ 34 := by omega
  have h5 : c.val ≠ 45 := by omega
  have h6 : c.val ≠ 48 := by omega
  have h7 : c.val ≠ 116 := by omega
  have h8 : c.val ≠ 102 := by omega
  have h9 : c.val ≠ 110 := by omega
  simp [Scanner.run, scannerAt, stateBeginValue, h1, h2, h3, h4, h5, h6, h7, h8, h9, hc]

theorem accepts_begin_quote (c : Byte) (cs : Bytes) (hc : c.val = 34) :
    accepts (scannerAt .beginValue) (c :: cs) = accepts (scannerAt .inString) cs := by
  rw [accepts_cons]
  simp [Scanner.run, scannerAt, stateBeginValue, isSpace, hc]

theorem accepts_neg_nil : accepts (scannerAt .neg) [] = false := rfl

theorem accepts_neg_zero (c : Byte) (cs : Bytes) (hc : c.val = 48) :
    accepts (scannerAt .neg) (c :: cs) = accepts (scannerAt .zero) cs := by
  rw [accepts_cons]
  simp [Scanner.run, scannerAt, stateNeg, hc]

theorem accepts_neg_nonzero (c : Byte) (cs : Bytes) (hc : 49 ≤ c.val ∧ c.val ≤ 57) :
    accepts (scannerAt .neg) (c :: cs) = accepts (scannerAt .one) cs := by
  rw [accepts_cons]
  have h6 : c.val ≠ 48 := by omega
  simp [Scanner.run, scannerAt, stateNeg, h6, hc]

theorem accepts_neg_other (c : Byte) (cs : Bytes) (hc : ¬ (48 ≤ c.val ∧ c.val ≤ 57)) :
    accepts (scannerAt .neg) (c :: cs) = false := by
  rw [accepts_cons]
  have h6 : c.val ≠ 48 := by omega
  have h7 : ¬ (49 ≤ c.val ∧ c.val ≤ 57) := by omega
  simp [Scanner.run, scannerAt, stateNeg, h6, h7, Scanner.fail]

theorem accepts_zero_nil : accepts (scannerAt .zero) [] = true := rfl

theorem accepts_one_nil : accepts (scannerAt .one) [] = true := rfl

/-- After a complete number, a byte that cannot continue it must be white
space, and only white space may follow. -/
theorem accepts_zero_end (c : Byte) (cs : Bytes)
    (hc : c.val ≠ 46 ∧ c.val ≠ 101 ∧ c.val ≠ 69) :
    accepts (scannerAt .zero) (c :: cs) = (isSpace c && cs.all isSpace) := by
  rw [accepts_cons]
  by_cases hs : isSpace c = true
  · simp [Scanner.run, scannerAt, state0, hc, stateEndValue, stateEndTop, hs]
    exact accepts_done cs
  · simp only [Bool.not_eq_true] at hs
    simp [Scanner.run, scannerAt, state0, hc, stateEndValue, stateEndTop, hs, Scanner.fail]
    exact accepts_failed _ rfl rfl cs

theorem accepts_one_digit (c : Byte) (cs : Bytes) (hc : isDigit c = true) :
    accepts (scannerAt .one) (c :: cs) = accepts (scannerAt .one) cs := by
  rw [accepts_cons]
  simp [Scanner.run, scannerAt, state1, hc]

theorem accepts_one_end (c : Byte) (cs : Bytes) (hd : isDigit c = false)
    (hc : c.val ≠ 46 ∧ c.val ≠ 101 ∧ c.val ≠ 69) :
    accepts (scannerAt .one) (c :: cs) = (isSpace c && cs.all isSpace) := by
  rw [accepts_cons]
  by_cases hs : isSpace c = true
  · simp [Scanner.run, scannerAt, state1, hd, state0, hc, stateEndValue, stateEndTop, hs]
    exact accepts_done cs
  · simp only [Bool.not_eq_true] at hs
    simp [Scanner.run, scannerAt, state1, hd, state0, hc, stateEndValue, stateEndTop, hs,
      Scanner.fail]
    exact accepts_failed _ rfl rfl cs

theorem accepts_one_digits (ds tl : Bytes) (hds : ds.all isDigit = true) :
    accepts (scannerAt .one) (ds ++ tl) = accepts (scannerAt .one) tl := by
  induction ds with
  | nil => rfl
  | cons c cs ih =>
    simp only [List.all_cons, Bool.and_eq_true] at hds
    rw [List.cons_append, accepts_one_digit c _ hds.1, ih hds.2]

theorem accepts_string_plain (c : Byte) (cs : Bytes)
    (hc : c.val ≠ 34 ∧ c.val ≠ 92 ∧ 32 ≤ c.val) :
    accepts (scannerAt .inString) (c :: cs) = accepts (scannerAt .inString) cs := by
  rw [accepts_cons]
  have h3 : ¬ c.val < 32 := by omega
  simp [Scanner.run, scannerAt, stateInString, hc, h3]

theorem accepts_string_close (c : Byte) (hc : c.val = 34) :
    accepts (scannerAt .inString) [c] = true := by
  rw [accepts_cons]
  simp [Scanner.run, scannerAt, stateInString, hc]
  rfl

end Rsescan

namespace Rsescan

/-! ## Digits -/

theorem digitsValue_cons (acc : Nat) (c : Byte) (cs : Bytes) :
    digitsValue acc (c :: cs) = digitsValue (acc * 10 + (c.val - 48)) cs := rfl

theorem digitsValue_snoc (acc : Nat) (xs : Bytes) (d : Byte) :
    digitsValue acc (xs ++ [d]) = digitsValue acc xs * 10 + (d.val - 48) := by
  simp [digitsValue, List.foldl_append]

theorem le_digitsValue (s : Bytes) : ∀ acc, acc ≤ digitsValue acc s := by
  induction s with
  | nil => intro acc; exact le_refl _
  | cons c cs ih =>
    intro acc
    rw [digitsValue_cons]
    have := ih (acc * 10 + (c.val - 48))
    omega

theorem val_ofNat_digit (d : Nat) (hd : d < 10) : ((Fin.ofNat (48 + d) : Byte)).val = 48 + d := by
  simp only [Fin.ofNat]
  omega

theorem natDigitsFuel_spec (fuel : Nat) : ∀ n, n < fuel →
    (natDigitsFuel fuel n).all isDigit = true ∧
    digitsValue 0 (natDigitsFuel fuel n) = n ∧
    (n = 0 → natDigitsFuel fuel n = [48]) ∧
    (0 < n → ∃ c rest, natDigitsFuel fuel n = c :: rest ∧ 49 ≤ c.val ∧ c.val ≤ 57) := by
  induction fuel with
  | zero => intro n hn; omega
  | succ fuel ih =>
    intro n hn
    by_cases h10 : n < 10
    · have hv := val_ofNat_digit n h10
      rw [natDigitsFuel, if_pos h10]
      refine ⟨?_, ?_, ?_, ?_⟩
      · simp only [List.all_cons, List.all_nil, Bool.and_true, isDigit_iff]
        omega
      · simp only [digitsValue, List.foldl_cons, List.foldl_nil]
        omega
      · intro h0; subst h0; rfl
      · intro hpos
        exact ⟨_, [], rfl, by omega, by omega⟩
    · have hv := val_ofNat_digit (n % 10) (Nat.mod_lt _ (by decide))
      obtain ⟨ha, hb, _, hd⟩ := ih (n / 10) (by omega)
      rw [natDigitsFuel, if_neg h10]
      refine ⟨?_, ?_, ?_, ?_⟩
      · simp only [List.all_append, ha, List.all_cons, List.all_nil, Bool.and_true,
          Bool.true_and, isDigit_iff]
        omega
      · rw [digitsValue_snoc, hb]
        omega
      · intro h0; omega
      · intro _
        obtain ⟨c, rest, hc, h1, h2⟩ := hd (by omega)
        exact ⟨c, rest ++ [_], by rw [hc]; rfl, h1, h2⟩

theorem natDigits_spec (n : Nat) :
    (natDigits n).all isDigit = true ∧
    digitsValue 0 (natDigits n) = n ∧
    (n = 0 → natDigits n = [48]) ∧
    (0 < n → ∃ c rest, natDigits n = c :: rest ∧ 49 ≤ c.val ∧ c.val ≤ 57) :=
  natDigitsFuel_spec (n + 1) n (by omega)

theorem natDigits_cons (n : Nat) :
    ∃ c rest, natDigits n = c :: rest ∧ isDigit c = true ∧ rest.all isDigit = true := by
  obtain ⟨ha, _, hc, hd⟩ := natDigits_spec n
  rcases Nat.eq_zero_or_pos n with h0 | hpos
  · exact ⟨48, [], hc h0, by decide, rfl⟩
  · obtain ⟨c, rest, hcr, _, _⟩ := hd hpos
    rw [hcr] at ha
    simp only [List.all_cons, Bool.and_eq_true] at ha
    exact ⟨c, rest, hcr, ha.1, ha.2⟩

/-! ## `strconv` on runs of digits -/

theorem parseUintLoop_digits (s : Bytes) : ∀ acc, s.all isDigit = true →
    digitsValue acc s < 2 ^ 64 → parseUintLoop acc s = (digitsValue acc s, none) := by
  induction s with
  | nil => intro acc _ _; rfl
  | cons c cs ih =>
    intro acc hall hlt
    simp only [List.all_cons, Bool.and_eq_true, isDigit_iff] at hall
    rw [digitsValue_cons] at hlt ⊢
    have hle := le_digitsValue cs (acc * 10 + (c.val - 48))
    have h1 : ¬ acc ≥ (2 ^ 64 - 1) / 10 + 1 := by omega
    have h2 : acc * 10 % 2 ^ 64 = acc * 10 := Nat.mod_eq_of_lt (by omega)
    have h3 : (acc * 10 + (c.val - 48)) % 2 ^ 64 = acc * 10 + (c.val - 48) :=
      Nat.mod_eq_of_lt (by omega)
    rw [parseUintLoop, if_pos hall.1]
    simp only [h1, h2, h3, if_false]
    rw [if_neg (by omega)]
    exact ih _ hall.2 hlt

theorem parseUintLoop_ok (s : Bytes) : ∀ acc v, parseUintLoop acc s = (v, none) →
    s.all isDigit = true := by
  induction s with
  | nil => intro _ _ _; rfl
  | cons c cs ih =>
    intro acc v h
    rw [parseUintLoop] at h
    by_cases hd : 48 ≤ c.val ∧ c.val ≤ 57
    · rw [if_pos hd] at h
      simp only at h
      split at h
      · simp at h
      · split at h
        · simp at h
        · simp only [List.all_cons, Bool.and_eq_true, isDigit_iff]
          exact ⟨hd, ih _ _ h⟩
    · rw [if_neg hd] at h
      simp at h

theorem atoiFastLoop_digits (s : Bytes) : ∀ acc : Nat, s.all isDigit = true →
    digitsValue acc s < 2 ^ 63 →
    atoiFastLoop (acc : Int) s = some ((digitsValue acc s : Nat) : Int) := by
  induction s with
  | nil => intro acc _ _; rfl
  | cons c cs ih =>
    intro acc hall hlt
    simp only [List.all_cons, Bool.and_eq_true, isDigit_iff] at hall
    rw [digitsValue_cons] at hlt ⊢
    have hle := le_digitsValue cs (acc * 10 + (c.val - 48))
    have hch : (c - 48 : Byte).val = c.val - 48 := by omega
    have hw : wrap64 ((acc : Int) * 10 + ((c - 48 : Byte).val : Int))
        = ((acc * 10 + (c.val - 48) : Nat) : Int) := by
      rw [hch, wrap64_of_range _ (by omega) (by omega)]
      push_cast
      rfl
    rw [atoiFastLoop]
    rw [if_neg (by omega), hw]
    exact ih _ hall.2 hlt

theorem atoiFastLoop_ok (s : Bytes) : ∀ acc v, atoiFastLoop acc s = some v →
    s.all isDigit = true := by
  induction s with
  | nil => intro _ _ _; rfl
  | cons c cs ih =>
    intro acc v h
    rw [atoiFastLoop] at h
    split at h
    · simp at h
    · rename_i h9
      simp only [List.all_cons, Bool.and_eq_true, isDigit_iff]
      exact ⟨by omega, ih _ _ h⟩

end Rsescan

namespace Rsescan

theorem parseUint_digits (s : Bytes) (hne : s ≠ []) (hall : s.all isDigit = true)
    (hlt : digitsValue 0 s < 2 ^ 64) : parseUint s = (digitsValue 0 s, none) := by
  rw [parseUint, if_neg hne]
  exact parseUintLoop_digits s 0 hall hlt

theorem natDigits_length_max : (natDigits (2 ^ 63)).length = 19 := by decide

theorem parseInt_minus (c : Byte) (cs : Bytes) (m : Nat) (hc : c.val = 45)
    (hu : parseUint cs = (m, none)) (hm : m ≤ 2 ^ 63) :
    parseInt (c :: cs) = (-(m : Int), none) := by
  have h45 : (c.val = 43 ∨ c.val = 45) := Or.inr hc
  have e1 : ¬ (¬ (c.val = 45) ∧ m ≥ 2 ^ 63) := fun h => h.1 hc
  have e2 : ¬ (c.val = 45 ∧ m > 2 ^ 63) := fun h => by omega
  have hw : wrap64 (-wrap64 (m : Int)) = -(m : Int) := by
    unfold wrap64
    omega
  unfold parseInt
  simp only [if_pos h45, hu, if_neg e1, if_neg e2, if_pos hc, hw]

theorem parseInt_plain (c : Byte) (cs : Bytes) (m : Nat) (hc : c.val ≠ 43 ∧ c.val ≠ 45)
    (hu : parseUint (c :: cs) = (m, none)) (hm : m < 2 ^ 63) :
    parseInt (c :: cs) = ((m : Int), none) := by
  have h45 : ¬ (c.val = 43 ∨ c.val = 45) := by omega
  have e1 : ¬ (¬ (c.val = 45) ∧ m ≥ 2 ^ 63) := fun h => by omega
  have e2 : ¬ (c.val = 45 ∧ m > 2 ^ 63) := fun h => hc.2 h.1
  have hw : wrap64 (m : Int) = (m : Int) := by
    unfold wrap64
    omega
  unfold parseInt
  simp only [if_neg h45, hu, if_neg e1, if_neg e2, if_neg hc.2, hw]

/-- `strconv.ParseInt` reads back the decimal rendering of every 64-bit integer. -/
theorem parseInt_decimal (n : Int) (h1 : -(2 ^ 63) ≤ n) (h2 : n < 2 ^ 63) :
    parseInt (decimal n) = (n, none) := by
  obtain ⟨hall, hval, _, _⟩ := natDigits_spec n.natAbs
  obtain ⟨c, rest, hcr, hc, _⟩ := natDigits_cons n.natAbs
  rw [isDigit_iff] at hc
  by_cases hneg : n < 0
  · have hm : ((n.natAbs : Nat) : Int) = -n := Int.ofNat_natAbs_of_nonpos (le_of_lt hneg)
    have hd : decimal n = 45 :: natDigits n.natAbs := by rw [decimal, if_pos hneg]
    generalize n.natAbs = m at *
    have hu : parseUint (natDigits m) = (m, none) := by
      rw [parseUint_digits _ (by rw [hcr]; simp) hall (by rw [hval]; omega), hval]
    rw [hd, parseInt_minus 45 _ m rfl hu (by omega), hm, neg_neg]
  · have hm : ((n.natAbs : Nat) : Int) = n := Int.natAbs_of_nonneg (not_lt.mp hneg)
    have hd : decimal n = c :: rest := by rw [decimal, if_neg hneg, hcr]
    generalize n.natAbs = m at *
    have hu : parseUint (c :: rest) = (m, none) := by
      rw [← hcr, parseUint_digits _ (by rw [hcr]; simp) hall (by rw [hval]; omega), hval]
    rw [hd, parseInt_plain c rest m (by omega) hu (by omega), hm]

theorem atoi_fast_minus (c : Byte) (cs : Bytes) (m : Nat) (hc : c.val = 45)
    (hlen : 0 < (c :: cs).length ∧ (c :: cs).length < 19) (hne : cs ≠ [])
    (hf : atoiFastLoop 0 cs = some (m : Int)) (hm : m < 2 ^ 63) :
    atoi (c :: cs) = .ok (-(m : Int)) := by
  have h45 : (c.val = 45 ∨ c.val = 43) := Or.inl hc
  have hl : ¬ ((c.val = 45 ∨ c.val = 43) ∧ cs.length < 1) := by
    intro h
    cases cs with
    | nil => exact hne rfl
    | cons _ _ => simp at h
  have hw : wrap64 (-(m : Int)) = -(m : Int) := by
    unfold wrap64
    omega
  unfold atoi
  simp only [if_pos hlen, if_pos h45, if_neg hl, hf, if_pos hc, hw]

theorem atoi_fast_plain (c : Byte) (cs : Bytes) (m : Nat) (hc : c.val ≠ 43 ∧ c.val ≠ 45)
    (hlen : 0 < (c :: cs).length ∧ (c :: cs).length < 19)
    (hf : atoiFastLoop 0 (c :: cs) = some (m : Int)) :
    atoi (c :: cs) = .ok (m : Int) := by
  have h45 : ¬ (c.val = 45 ∨ c.val = 43) := by omega
  have hl : ¬ ((c.val = 45 ∨ c.val = 43) ∧ (c :: cs).length < 1) := fun h => h45 h.1
  unfold atoi
  simp only [if_pos hlen, if_neg h45, if_neg hl, hf, if_neg hc.2]

theorem atoi_slow (s : Bytes) (n : Int) (hlen : ¬ (0 < s.length ∧ s.length < 19))
    (hp : parseInt s = (n, none)) : atoi s = .ok n := by
  unfold atoi
  simp only [if_neg hlen, hp]

/-- `strconv.Atoi` reads back the decimal rendering of every 64-bit integer. -/
theorem atoi_decimal (n : Int) (h1 : -(2 ^ 63) ≤ n) (h2 : n < 2 ^ 63) :
    atoi (decimal n) = .ok n := by
  by_cases hlen : 0 < (decimal n).length ∧ (decimal n).length < 19
  · obtain ⟨hall, hval, _, _⟩ := natDigits_spec n.natAbs
    obtain ⟨c, rest, hcr, hc, _⟩ := natDigits_cons n.natAbs
    rw [isDigit_iff] at hc
    by_cases hneg : n < 0
    · have hm : ((n.natAbs : Nat) : Int) = -n := Int.ofNat_natAbs_of_nonpos (le_of_lt hneg)
      have hd : decimal n = 45 :: natDigits n.natAbs := by rw [decimal, if_pos hneg]
      generalize n.natAbs = m at *
      have hlt : m < 2 ^ 63 := by
        by_contra hge
        have hm2 : m = 2 ^ 63 := by omega
        rw [hd, hm2, List.length_cons, natDigits_length_max] at hlen
        omega
      have hf := atoiFastLoop_digits (natDigits m) 0 hall (by rw [hval]; exact hlt)
      rw [hval, Nat.cast_zero] at hf
      rw [hd] at hlen ⊢
      rw [atoi_fast_minus 45 _ m rfl hlen (by rw [hcr]; simp) hf hlt, hm, neg_neg]
    · have hm : ((n.natAbs : Nat) : Int) = n := Int.natAbs_of_nonneg (not_lt.mp hneg)
      have hd : decimal n = c :: rest := by rw [decimal, if_neg hneg, hcr]
      generalize n.natAbs = m at *
      have hf := atoiFastLoop_digits (natDigits m) 0 hall (by rw [hval]; omega)
      rw [hval, Nat.cast_zero, hcr] at hf
      rw [hd] at hlen ⊢
      rw [atoi_fast_plain c rest m (by omega) hlen hf, hm]
  · exact atoi_slow _ n hlen (parseInt_decimal n h1 h2)

end Rsescan

namespace Rsescan

/-! ## Decoding the two renderings of a port -/

/-- A byte of a decimal rendering: a minus sign or a digit. -/
theorem decimal_bytes (n : Int) : ∀ b ∈ decimal n, b.val = 45 ∨ (48 ≤ b.val ∧ b.val ≤ 57) := by
  obtain ⟨hall, _, _, _⟩ := natDigits_spec n.natAbs
  rw [List.all_eq_true] at hall
  intro b hb
  unfold decimal at hb
  split at hb
  · rcases List.mem_cons.mp hb with h | h
    · left; rw [h]; rfl
    · right; exact (isDigit_iff b).mp (hall b h)
  · right; exact (isDigit_iff b).mp (hall b hb)

theorem accepts_string_body (s : Bytes) (tl : Bytes)
    (hs : ∀ b ∈ s, b.val ≠ 34 ∧ b.val ≠ 92 ∧ 32 ≤ b.val) :
    accepts (scannerAt .inString) (s ++ tl) = accepts (scannerAt .inString) tl := by
  induction s with
  | nil => rfl
  | cons c cs ih =>
    rw [List.cons_append, accepts_string_plain c _ (hs c (List.mem_cons_self _ _)),
      ih (fun b hb => hs b (List.mem_cons_of_mem _ hb))]

theorem checkValid_quoted (s : Bytes) (hs : ∀ b ∈ s, b.val ≠ 34 ∧ b.val ≠ 92 ∧ 32 ≤ b.val) :
    checkValid (quoted s) = true := by
  rw [checkValid_eq_accepts, reset_eq, quoted, accepts_begin_quote 34 _ rfl,
    accepts_string_body s _ hs]
  exact accepts_string_close 34 rfl

theorem rescanString_plain (s : Bytes) (hs : ∀ b ∈ s, b.val ≠ 34 ∧ b.val ≠ 92) :
    rescanString (s ++ [34]) = s ++ [34] := by
  induction s with
  | nil => rfl
  | cons c cs ih =>
    have hc := hs c (List.mem_cons_self _ _)
    have ih' := ih (fun b hb => hs b (List.mem_cons_of_mem _ hb))
    cases cs with
    | nil =>
      show rescanString [c, 34] = [c, 34]
      rw [rescanString, if_neg hc.2, if_neg hc.1]
      rfl
    | cons d ds =>
      show rescanString (c :: d :: (ds ++ [34])) = c :: d :: (ds ++ [34])
      rw [rescanString, if_neg hc.2, if_neg hc.1]
      exact congrArg (c :: ·) ih'

theorem unquoteScan_plain (s : Bytes) : ∀ fuel, s.length ≤ fuel →
    (∀ b ∈ s, b.val ≠ 34 ∧ b.val ≠ 92 ∧ 32 ≤ b.val ∧ b.val < 128) →
    unquoteScan fuel s = s.length := by
  induction s with
  | nil => intro fuel _ _; cases fuel <;> rfl
  | cons c cs ih =>
    intro fuel hfuel hs
    obtain ⟨fuel, rfl⟩ : ∃ f, fuel = f + 1 := ⟨fuel - 1, by simp at hfuel; omega⟩
    have hc := hs c (List.mem_cons_self _ _)
    have h1 : ¬ (c.val = 92 ∨ c.val = 34 ∨ c.val < 32) := by omega
    rw [unquoteScan, if_neg h1, if_pos hc.2.2.2,
      ih fuel (by simp at hfuel; omega) (fun b hb => hs b (List.mem_cons_of_mem _ hb))]
    simp only [List.length_cons]
    omega

theorem unquoteBytes_quoted (s : Bytes)
    (hs : ∀ b ∈ s, b.val ≠ 34 ∧ b.val ≠ 92 ∧ 32 ≤ b.val ∧ b.val < 128) :
    unquoteBytes (34 :: (s ++ [34])) = some s := by
  have hbody : (List.drop 1 (34 :: (s ++ [34]))).dropLast = s := by
    simp
  have hguard : ¬ ((34 :: (s ++ [34]) : Bytes).length < 2 ∨
      (34 :: (s ++ [34]) : Bytes).head? ≠ some 34 ∨
      (34 :: (s ++ [34]) : Bytes).getLast? ≠ some 34) := by
    have hl : (34 :: (s ++ [34]) : Bytes).getLast? = some 34 := by
      rw [← List.cons_append, List.getLast?_append]
      rfl
    simp [hl]
  rw [unquoteBytes, if_neg hguard]
  simp only [hbody]
  rw [if_pos (unquoteScan_plain s s.length (le_refl _) hs)]

theorem unmarshalString_string (data : Bytes) (c : Byte) (rest s : Bytes)
    (hv : checkValid data = true) (hsk : skipSpace data = c :: rest) (hc : c.val = 34)
    (hu : unquoteBytes (literalItem c rest) = some s) : unmarshalString data = .ok s := by
  unfold unmarshalString
  simp only [hv, not_true_eq_false, if_false, hsk, hc, hu]
  simp

theorem unmarshalString_number (data : Bytes) (c : Byte) (rest : Bytes)
    (hv : checkValid data = true) (hsk : skipSpace data = c :: rest)
    (hc : c.val = 45 ∨ (48 ≤ c.val ∧ c.val ≤ 57)) :
    unmarshalString data = .error (.mismatch "number") := by
  have h1 : c.val ≠ 91 := by omega
  have h2 : c.val ≠ 123 := by omega
  have h3 : c.val ≠ 110 := by omega
  have h4 : ¬ (c.val = 116 ∨ c.val = 102) := by omega
  have h5 : c.val ≠ 34 := by omega
  have h6 : ¬ (c.val ≠ 45 ∧ (c.val < 48 ∨ c.val > 57)) := by omega
  unfold unmarshalString
  simp only [hv, not_true_eq_false, if_false, hsk, if_neg h1, if_neg h2, if_neg h3, if_neg h4,
    if_neg h5, if_neg h6]

theorem unmarshalInt_number (data : Bytes) (c : Byte) (rest : Bytes) (n : Int)
    (hv : checkValid data = true) (hsk : skipSpace data = c :: rest)
    (hc : c.val = 45 ∨ (48 ≤ c.val ∧ c.val ≤ 57))
    (hp : parseInt (literalItem c rest) = (n, none)) :
    unmarshalInt data = .ok n := by
  have h1 : c.val ≠ 91 := by omega
  have h2 : c.val ≠ 123 := by omega
  have h3 : c.val ≠ 110 := by omega
  have h4 : ¬ (c.val = 116 ∨ c.val = 102) := by omega
  have h5 : c.val ≠ 34 := by omega
  have h6 : ¬ (c.val ≠ 45 ∧ (c.val < 48 ∨ c.val > 57)) := by omega
  unfold unmarshalInt
  simp only [hv, not_true_eq_false, if_false, hsk, if_neg h1, if_neg h2, if_neg h3, if_neg h4,
    if_neg h5, if_neg h6, hp]

theorem skipSpace_cons (c : Byte) (rest : Bytes) (hc : isSpace c = false) :
    skipSpace (c :: rest) = c :: rest := by
  rw [skipSpace, hc]
  rfl

theorem literalItem_number (c : Byte) (rest : Bytes)
    (hc : c.val = 45 ∨ (48 ≤ c.val ∧ c.val ≤ 57)) :
    literalItem c rest = c :: rest.takeWhile isNumberByte := by
  have h5 : c.val ≠ 34 := by omega
  have h6 : isDigit c = true ∨ c.val = 45 := by
    rw [isDigit_iff]; omega
  rw [literalItem, if_neg h5, if_pos h6]

theorem checkValid_decimal (n : Int) : checkValid (decimal n) = true := by
  obtain ⟨_, _, h0, hpos⟩ := natDigits_spec n.natAbs
  obtain ⟨c, rest, hcr, hc, hrest⟩ := natDigits_cons n.natAbs
  rw [checkValid_eq_accepts, reset_eq]
  by_cases hneg : n < 0
  · obtain ⟨c, rest, hcr, hc1, hc2⟩ := hpos (by omega)
    have hall := (natDigits_spec n.natAbs).1
    rw [hcr] at hall
    simp only [List.all_cons, Bool.and_eq_true] at hall
    rw [decimal, if_pos hneg, accepts_begin_minus 45 _ rfl, hcr,
      accepts_neg_nonzero c rest ⟨hc1, hc2⟩]
    have := accepts_one_digits rest [] hall.2
    rw [List.append_nil] at this
    rw [this]
    rfl
  · rw [decimal, if_neg hneg]
    rcases Nat.eq_zero_or_pos n.natAbs with hz | hp
    · rw [h0 hz, accepts_begin_zero 48 _ rfl]
      rfl
    · obtain ⟨c, rest, hcr, hc1, hc2⟩ := hpos hp
      have hall := (natDigits_spec n.natAbs).1
      rw [hcr] at hall
      simp only [List.all_cons, Bool.and_eq_true] at hall
      rw [hcr, accepts_begin_nonzero c rest ⟨hc1, hc2⟩]
      have := accepts_one_digits rest [] hall.2
      rw [List.append_nil] at this
      rw [this]
      rfl

/-- The shape of a decimal rendering: a first byte that is a minus sign or a
digit, then bytes that may all continue a number. -/
theorem decimal_cons (n : Int) :
    ∃ c rest, decimal n = c :: rest ∧ (c.val = 45 ∨ (48 ≤ c.val ∧ c.val ≤ 57)) ∧
      rest.takeWhile isNumberByte = rest := by
  have hb := decimal_bytes n
  obtain ⟨c, rest, hcr, _, _⟩ := natDigits_cons n.natAbs
  have hne : decimal n ≠ [] := by
    unfold decimal
    split
    · simp
    · rw [hcr]; simp
  obtain ⟨c, rest, hd⟩ := List.exists_cons_of_ne_nil hne
  refine ⟨c, rest, hd, hb c (by rw [hd]; exact List.mem_cons_self _ _), ?_⟩
  rw [List.takeWhile_eq_self_iff]
  intro b hmem
  have := hb b (by rw [hd]; exact List.mem_cons_of_mem _ hmem)
  simp only [isNumberByte, isDigit, Bool.or_eq_true, Bool.and_eq_true, decide_eq_true_eq]
  omega

theorem unmarshalInt_decimal (n : Int) (h1 : -(2 ^ 63) ≤ n) (h2 : n < 2 ^ 63) :
    unmarshalInt (decimal n) = .ok n := by
  obtain ⟨c, rest, hd, hc, htw⟩ := decimal_cons n
  have hsp : isSpace c = false := by
    rw [← Bool.not_eq_true, isSpace_iff]; omega
  apply unmarshalInt_number (decimal n) c rest n (checkValid_decimal n)
    (by rw [hd]; exact skipSpace_cons c rest hsp) hc
  rw [literalItem_number c rest hc, htw, ← hd]
  exact parseInt_decimal n h1 h2

theorem unmarshalString_decimal (n : Int) :
    unmarshalString (decimal n) = .error (.mismatch "number") := by
  obtain ⟨c, rest, hd, hc, _⟩ := decimal_cons n
  have hsp : isSpace c = false := by
    rw [← Bool.not_eq_true, isSpace_iff]; omega
  exact unmarshalString_number (decimal n) c rest (checkValid_decimal n)
    (by rw [hd]; exact skipSpace_cons c rest hsp) hc

theorem unmarshalString_quoted_decimal (n : Int) :
    unmarshalString (quoted (decimal n)) = .ok (decimal n) := by
  have hb := decimal_bytes n
  apply unmarshalString_string (quoted (decimal n)) 34 (decimal n ++ [34]) (decimal n)
    (checkValid_quoted _ (fun b h => by have := hb b h; omega)) rfl rfl
  have hlit : literalItem 34 (decimal n ++ [34]) = 34 :: (decimal n ++ [34]) := by
    rw [literalItem, if_pos (show ((34 : Byte).val = 34) from rfl),
      rescanString_plain _ (fun b h => by have := hb b h; omega)]
  rw [hlit]
  exact unquoteBytes_quoted _ (fun b h => by have := hb b h; omega)

end Rsescan

namespace Rsescan

/-! ## What `strconv` accepts -/

theorem parseUintLoop_range (s : Bytes) : ∀ acc v, parseUintLoop acc s = (v, some .range) →
    v = 2 ^ 64 - 1 := by
  induction s with
  | nil => intro acc v h; simp [parseUintLoop] at h
  | cons c cs ih =>
    intro acc v h
    rw [parseUintLoop] at h
    split at h
    · simp only at h
      split at h
      · simp only [Prod.mk.injEq] at h; exact h.1.symm
      · split at h
        · simp only [Prod.mk.injEq] at h; exact h.1.symm
        · exact ih _ _ h
    · simp at h

theorem parseUint_ok (s : Bytes) (v : Nat) (h : parseUint s = (v, none)) :
    s ≠ [] ∧ s.all isDigit = true := by
  unfold parseUint at h
  split at h
  · simp at h
  · rename_i hne
    exact ⟨hne, parseUintLoop_ok s 0 v h⟩

theorem parseUint_range (s : Bytes) (v : Nat) (h : parseUint s = (v, some .range)) :
    v = 2 ^ 64 - 1 := by
  unfold parseUint at h
  split at h
  · simp at h
  · exact parseUintLoop_range s 0 v h

/-- What `strconv.ParseInt` accepts is an optional sign followed by digits. -/
theorem parseInt_ok (c : Byte) (cs : Bytes) (v : Int) (h : parseInt (c :: cs) = (v, none)) :
    (if c.val = 43 ∨ c.val = 45 then cs else c :: cs) ≠ [] ∧
    (if c.val = 43 ∨ c.val = 45 then cs else c :: cs).all isDigit = true := by
  unfold parseInt at h
  simp only at h
  generalize (if c.val = 43 ∨ c.val = 45 then cs else c :: cs) = s1 at h ⊢
  rcases hu : parseUint s1 with ⟨un, e⟩
  rw [hu] at h
  cases e with
  | none => exact parseUint_ok s1 un hu
  | some e =>
    cases e with
    | invalid => simp at h
    | range =>
      have hv := parseUint_range s1 un hu
      subst hv
      simp only at h
      by_cases hneg : c.val = 45
      · simp [hneg] at h
      · simp [hneg] at h

theorem isBase10Integer_cons (c : Byte) (cs : Bytes) :
    isBase10Integer (c :: cs) =
      (if c.val = 43 ∨ c.val = 45 then !cs.isEmpty && cs.all isDigit
       else (c :: cs).all isDigit) := rfl

theorem isBase10Integer_of_parseInt (s : Bytes) (v : Int) (h : parseInt s = (v, none)) :
    isBase10Integer s = true := by
  cases s with
  | nil => simp [parseInt] at h
  | cons c cs =>
    obtain ⟨hne, hall⟩ := parseInt_ok c cs v h
    rw [isBase10Integer_cons]
    by_cases hsign : c.val = 43 ∨ c.val = 45
    · rw [if_pos hsign] at hne hall ⊢
      cases cs with
      | nil => exact absurd rfl hne
      | cons d ds => simpa using hall
    · rw [if_neg hsign] at hall ⊢
      exact hall

theorem atoi_fast_ok (c : Byte) (cs : Bytes) (v : Int)
    (hlen : 0 < (c :: cs).length ∧ (c :: cs).length < 19) (h : atoi (c :: cs) = .ok v) :
    ¬ ((c.val = 45 ∨ c.val = 43) ∧ (if c.val = 45 ∨ c.val = 43 then cs else c :: cs).length < 1)
    ∧ ∃ n, atoiFastLoop 0 (if c.val = 45 ∨ c.val = 43 then cs else c :: cs) = some n := by
  unfold atoi at h
  rw [if_pos hlen] at h
  simp only at h
  generalize (if c.val = 45 ∨ c.val = 43 then cs else c :: cs) = s1 at h ⊢
  by_cases hguard : (c.val = 45 ∨ c.val = 43) ∧ s1.length < 1
  · rw [if_pos hguard] at h
    simp at h
  · rw [if_neg hguard] at h
    refine ⟨hguard, ?_⟩
    cases hf : atoiFastLoop 0 s1 with
    | none => rw [hf] at h; simp at h
    | some n => exact ⟨n, rfl⟩

/-- What `strconv.Atoi` accepts is an optional sign followed by digits. -/
theorem isBase10Integer_of_atoi (s : Bytes) (v : Int) (h : atoi s = .ok v) :
    isBase10Integer s = true := by
  by_cases hlen : 0 < s.length ∧ s.length < 19
  · cases s with
    | nil => simp at hlen
    | cons c cs =>
      obtain ⟨hguard, n, hf⟩ := atoi_fast_ok c cs v hlen h
      have hall := atoiFastLoop_ok _ _ _ hf
      rw [isBase10Integer_cons]
      by_cases hsign : c.val = 45 ∨ c.val = 43
      · rw [if_pos hsign] at hall hguard
        have h43 : c.val = 43 ∨ c.val = 45 := by omega
        rw [if_pos h43]
        cases cs with
        | nil => simp [hsign] at hguard
        | cons d ds => simpa using hall
      · rw [if_neg hsign] at hall
        have h43 : ¬ (c.val = 43 ∨ c.val = 45) := by omega
        rw [if_neg h43]
        exact hall
  · unfold atoi at h
    rw [if_neg hlen] at h
    split at h
    · rename_i i64 hp
      exact isBase10Integer_of_parseInt s i64 hp
    · simp at h

end Rsescan

namespace Rsescan

/-! ## What the decoder accepts as a number -/

theorem not_numberByte (t : Byte) (h : isNumberByte t = false) :
    isDigit t = false ∧ t.val ≠ 46 ∧ t.val ≠ 101 ∧ t.val ≠ 69 := by
  simp only [isNumberByte, Bool.or_eq_false_iff, decide_eq_false_iff_not] at h
  exact ⟨h.1.1.1.1.1, h.1.1.1.1.2, h.1.1.1.2, h.1.1.2⟩

theorem allSpace_after_zero (dr : Bytes) (hdr : ∀ t ∈ dr.head?, isNumberByte t = false)
    (h : accepts (scannerAt .zero) dr = true) : dr.all isSpace = true := by
  cases dr with
  | nil => rfl
  | cons t dr' =>
    obtain ⟨_, h2⟩ := not_numberByte t (hdr t rfl)
    rw [accepts_zero_end t dr' h2] at h
    simpa using h

theorem allSpace_after_one (dr : Bytes) (hdr : ∀ t ∈ dr.head?, isNumberByte t = false)
    (h : accepts (scannerAt .one) dr = true) : dr.all isSpace = true := by
  cases dr with
  | nil => rfl
  | cons t dr' =>
    obtain ⟨h1, h2⟩ := not_numberByte t (hdr t rfl)
    rw [accepts_one_end t dr' h1 h2] at h
    simpa using h

theorem no_digit_after_zero (d : Byte) (l : Bytes) (hd : isDigit d = true)
    (h : accepts (scannerAt .zero) (d :: l) = true) : False := by
  rw [isDigit_iff] at hd
  rw [accepts_zero_end d l (by omega)] at h
  simp only [Bool.and_eq_true] at h
  have := (isSpace_iff d).mp h.1
  omega

/-- The scanner accepts a run of digits only as `0` or without a leading zero,
and only white space may follow the number. -/
theorem natural_accepts (d : Byte) (tw dr : Bytes) (hd : isDigit d = true)
    (htw : tw.all isDigit = true) (hdr : ∀ t ∈ dr.head?, isNumberByte t = false)
    (h : (if d.val = 48 then accepts (scannerAt .zero) (tw ++ dr)
          else accepts (scannerAt .one) (tw ++ dr)) = true) :
    isNaturalLiteral (d :: tw) = true ∧ dr.all isSpace = true := by
  by_cases h0 : d.val = 48
  · rw [if_pos h0] at h
    cases tw with
    | nil =>
      refine ⟨?_, allSpace_after_zero dr hdr h⟩
      simp [isNaturalLiteral, h0]
    | cons d' tw' =>
      simp only [List.all_cons, Bool.and_eq_true] at htw
      exact (no_digit_after_zero d' _ htw.1 h).elim
  · rw [if_neg h0, accepts_one_digits tw dr htw] at h
    rw [isDigit_iff] at hd
    refine ⟨?_, allSpace_after_one dr hdr h⟩
    have h1 : 49 ≤ d.val ∧ d.val ≤ 57 := by omega
    simp [isNaturalLiteral, h0, h1, htw]

theorem number_accepts (c : Byte) (tw dr : Bytes)
    (hc : c.val = 45 ∨ (48 ≤ c.val ∧ c.val ≤ 57)) (htw : tw.all isDigit = true)
    (hne : c.val = 45 → tw ≠ []) (hdr : ∀ t ∈ dr.head?, isNumberByte t = false)
    (h : accepts (scannerAt .beginValue) (c :: (tw ++ dr)) = true) :
    isIntegerLiteral (c :: tw) = true ∧ dr.all isSpace = true := by
  by_cases h45 : c.val = 45
  · rw [accepts_begin_minus c _ h45] at h
    cases tw with
    | nil => exact absurd rfl (hne h45)
    | cons d tw' =>
      simp only [List.all_cons, Bool.and_eq_true] at htw
      have hd := (isDigit_iff d).mp htw.1
      have key : (if d.val = 48 then accepts (scannerAt .zero) (tw' ++ dr)
          else accepts (scannerAt .one) (tw' ++ dr)) = true := by
        by_cases h0 : d.val = 48
        · rw [if_pos h0, ← accepts_neg_zero d _ h0]; exact h
        · rw [if_neg h0, ← accepts_neg_nonzero d _ (by omega)]; exact h
      have := natural_accepts d tw' dr htw.1 htw.2 hdr key
      refine ⟨?_, this.2⟩
      rw [isIntegerLiteral, if_pos h45]
      exact this.1
  · have hd : isDigit c = true := by rw [isDigit_iff]; omega
    have key : (if c.val = 48 then accepts (scannerAt .zero) (tw ++ dr)
        else accepts (scannerAt .one) (tw ++ dr)) = true := by
      by_cases h0 : c.val = 48
      · rw [if_pos h0, ← accepts_begin_zero c _ h0]; exact h
      · rw [if_neg h0, ← accepts_begin_nonzero c _ (by omega)]; exact h
    have := natural_accepts c tw dr hd htw hdr key
    refine ⟨?_, this.2⟩
    rw [isIntegerLiteral, if_neg h45]
    exact this.1

theorem takeWhile_notSpace (lit dr : Bytes) (hlit : ∀ b ∈ lit, isSpace b = false)
    (hdr : dr.all isSpace = true) :
    (lit ++ dr).takeWhile (fun c => !isSpace c) = lit ∧
    (lit ++ dr).dropWhile (fun c => !isSpace c) = dr := by
  have h1 : ∀ a ∈ lit, (fun c => !isSpace c) a = true := fun a ha => by simp [hlit a ha]
  rw [List.takeWhile_append_of_pos h1, List.dropWhile_append_of_pos h1]
  cases dr with
  | nil => simp
  | cons t dr' =>
    simp only [List.all_cons, Bool.and_eq_true] at hdr
    simp [List.takeWhile_cons, List.dropWhile_cons, hdr.1]

/-- A message that `json.Unmarshal` stores into an `int` through its number
case is a native JSON integer. -/
theorem isNativeInteger_of_number (data : Bytes) (c : Byte) (rest : Bytes) (v : Int)
    (hv : checkValid data = true) (hsk : skipSpace data = c :: rest)
    (hc : c.val = 45 ∨ (48 ≤ c.val ∧ c.val ≤ 57))
    (hp : parseInt (literalItem c rest) = (v, none)) : isNativeInteger data = true := by
  have hrest : rest.takeWhile isNumberByte ++ rest.dropWhile isNumberByte = rest :=
    List.takeWhile_append_dropWhile _ _
  have hdr : ∀ t ∈ (rest.dropWhile isNumberByte).head?, isNumberByte t = false := by
    intro t ht
    have := List.head?_dropWhile_not isNumberByte rest
    rw [Option.mem_def.mp ht] at this
    simpa using this
  rw [literalItem_number c rest hc] at hp
  generalize rest.takeWhile isNumberByte = tw at hrest hp
  generalize rest.dropWhile isNumberByte = dr at hrest hdr
  obtain ⟨hne, hall⟩ := parseInt_ok c tw v hp
  have htw : tw.all isDigit = true := by
    by_cases hsign : c.val = 43 ∨ c.val = 45
    · rw [if_pos hsign] at hall; exact hall
    · rw [if_neg hsign] at hall
      simp only [List.all_cons, Bool.and_eq_true] at hall
      exact hall.2
  have htne : c.val = 45 → tw ≠ [] := by
    intro h45
    rw [if_pos (Or.inr h45)] at hne
    exact hne
  have hacc : accepts (scannerAt .beginValue) (c :: (tw ++ dr)) = true := by
    rw [hrest, ← hsk, ← accepts_begin_skipSpace, ← reset_eq, ← checkValid_eq_accepts]
    exact hv
  obtain ⟨hlit, hsp⟩ := number_accepts c tw dr hc htw htne hdr hacc
  have hns : ∀ b ∈ c :: tw, isSpace b = false := by
    intro b hb
    rw [← Bool.not_eq_true, isSpace_iff]
    rcases List.mem_cons.mp hb with h | h
    · rw [h]; omega
    · have := (isDigit_iff b).mp ((List.all_eq_true.mp htw) b h)
      omega
  obtain ⟨ht, hd⟩ := takeWhile_notSpace (c :: tw) dr hns hsp
  unfold isNativeInteger
  simp only [hsk, ← hrest]
  rw [show c :: (tw ++ dr) = (c :: tw) ++ dr from rfl, ht, hd, hlit, hsp]
  rfl

end Rsescan

namespace Rsescan

/-! ## `parsePort` -/

/-- When `json.Unmarshal` into a string succeeds, the message is a JSON string
with the stored content, or it is `null` and the empty string is left. -/
theorem unmarshalString_ok (raw s : Bytes) (h : unmarshalString raw = .ok s) :
    stringContent raw = some s ∨ s = [] := by
  unfold unmarshalString at h
  unfold stringContent
  by_cases hv : checkValid raw = true
  · simp only [hv, not_true_eq_false, if_false, if_true] at h ⊢
    cases hsk : skipSpace raw with
    | nil => rw [hsk] at h; simp at h
    | cons c rest =>
      rw [hsk] at h
      simp only at h ⊢
      by_cases h91 : c.val = 91
      · simp [h91] at h
      by_cases h123 : c.val = 123
      · simp [h123] at h
      by_cases h110 : c.val = 110
      · simp only [h110] at h
        simp at h
        exact Or.inr h
      by_cases htf : c.val = 116 ∨ c.val = 102
      · simp [h91, h123, h110, htf] at h
      by_cases h34 : c.val = 34
      · simp only [if_neg h91, if_neg h123, if_neg h110, if_neg htf, if_pos h34] at h ⊢
        cases hu : unquoteBytes (literalItem c rest) with
        | none => rw [hu] at h; simp at h
        | some t =>
          rw [hu] at h
          simp only [Except.ok.injEq] at h
          exact Or.inl (by rw [h])
      · simp only [if_neg h91, if_neg h123, if_neg h110, if_neg htf, if_neg h34] at h
        split at h <;> simp at h
  · simp [hv] at h

/-- When `json.Unmarshal` into an `int` succeeds, the message is `null` (which
`json.Unmarshal` into a string accepts as well) or a native JSON integer. -/
theorem unmarshalInt_ok (raw : Bytes) (n : Int) (h : unmarshalInt raw = .ok n) :
    (∃ s, unmarshalString raw = .ok s) ∨ isNativeInteger raw = true := by
  unfold unmarshalInt at h
  by_cases hv : checkValid raw = true
  · simp only [hv, not_true_eq_false, if_false] at h
    cases hsk : skipSpace raw with
    | nil => rw [hsk] at h; simp at h
    | cons c rest =>
      rw [hsk] at h
      simp only at h
      by_cases h91 : c.val = 91
      · simp [h91] at h
      by_cases h123 : c.val = 123
      · simp [h123] at h
      by_cases h110 : c.val = 110
      · left
        refine ⟨[], ?_⟩
        unfold unmarshalString
        simp [hv, hsk, h110]
      by_cases htf : c.val = 116 ∨ c.val = 102
      · simp [h91, h123, h110, htf] at h
      by_cases h34 : c.val = 34
      · simp only [if_neg h91, if_neg h123, if_neg h110, if_neg htf, if_pos h34] at h
        split at h <;> simp at h
      by_cases hnum : c.val ≠ 45 ∧ (c.val < 48 ∨ c.val > 57)
      · simp only [if_neg h91, if_neg h123, if_neg h110, if_neg htf, if_neg h34,
          if_pos hnum] at h
        simp at h
      · simp only [if_neg h91, if_neg h123, if_neg h110, if_neg htf, if_neg h34,
          if_neg hnum] at h
        right
        cases hp : parseInt (literalItem c rest) with
        | mk v e =>
          rw [hp] at h
          cases e with
          | some e => simp at h
          | none =>
            exact isNativeInteger_of_number raw c rest v hv hsk (by omega) hp
  · simp [hv] at h

/-- C1: for every integer `n` in the range of a 64-bit Go `int`, `parsePort`
returns `n` without error both on the JSON string literal whose content is the
base-10 rendering of `n` and on the JSON number literal that is the base-10
rendering of `n`. -/
theorem parsePort_decimal (n : Int) (h1 : -(2 ^ 63) ≤ n) (h2 : n < 2 ^ 63) :
    parsePort (quoted (decimal n)) = .ok n ∧ parsePort (decimal n) = .ok n := by
  constructor
  · unfold parsePort
    rw [unmarshalString_quoted_decimal n]
    simp only [atoi_decimal n h1 h2]
  · unfold parsePort
    rw [unmarshalString_decimal n]
    simp only [unmarshalInt_decimal n h1 h2]

/-- Witness for C1: port 443, quoted and as a number. -/
theorem parsePort_decimal_witness :
    (-(2 ^ 63) ≤ (443 : Int) ∧ (443 : Int) < 2 ^ 63) ∧
    parsePort (quoted (decimal 443)) = .ok 443 ∧ parsePort (decimal 443) = .ok 443 :=
  ⟨by decide, parsePort_decimal 443 (by decide) (by decide)⟩

/-- C2: a raw message that is neither a JSON string whose content is a
base-10 integer nor a native JSON integer (so an object, an array, a boolean,
`null`, a string with other content, a number with a fraction or an exponent,
or no JSON at all) makes `parsePort` return an error; in particular it never
returns 0, or any other port, for it. -/
theorem parsePort_rejects (raw : Bytes)
    (hs : ∀ s, stringContent raw = some s → isBase10Integer s = false)
    (hn : isNativeInteger raw = false) :
    (∃ err, parsePort raw = .error err) ∧ ∀ port, parsePort raw ≠ .ok port := by
  have key : ∀ port, parsePort raw ≠ .ok port := by
    intro port hport
    unfold parsePort at hport
    cases hU : unmarshalString raw with
    | ok s =>
      rw [hU] at hport
      simp only at hport
      cases hA : atoi s with
      | error e => rw [hA] at hport; simp at hport
      | ok v =>
        have hb := isBase10Integer_of_atoi s v hA
        rcases unmarshalString_ok raw s hU with hc | hnil
        · rw [hs s hc] at hb
          exact Bool.false_ne_true hb
        · rw [hnil] at hb
          exact Bool.false_ne_true hb
    | error e =>
      rw [hU] at hport
      simp only at hport
      cases hI : unmarshalInt raw with
      | error e2 => rw [hI] at hport; simp at hport
      | ok v =>
        rcases unmarshalInt_ok raw v hI with ⟨s, hs2⟩ | hnat
        · rw [hU] at hs2
          simp at hs2
        · rw [hn] at hnat
          exact Bool.false_ne_true hnat
  refine ⟨?_, key⟩
  cases hP : parsePort raw with
  | error err => exact ⟨err, rfl⟩
  | ok port => exact absurd hP (key port)

/-- Witness for C2: the boolean `true`. -/
theorem parsePort_rejects_witness :
    isNativeInteger (bytes "true") = false ∧
    ((∃ err, parsePort (bytes "true") = .error err) ∧
      ∀ port, parsePort (bytes "true") ≠ .ok port) :=
  ⟨by decide, parsePort_rejects (bytes "true")
    (fun s h => by
      have h0 : stringContent (bytes "true") = none := by decide
      rw [h0] at h
      exact Option.noConfusion h)
    (by decide)⟩

/-- The shapes named by C2, evaluated: an object, an array, the booleans,
`null`, the empty string, strings that are not integers, numbers that are not
integers, and an absent field all end in an error. -/
theorem parsePort_rejects_shapes :
    parsePort (bytes "\x7b\"port\":443\x7d") = .error (.unparseable (bytes "\x7b\"port\":443\x7d")) ∧
    parsePort (bytes "[443]") = .error (.unparseable (bytes "[443]")) ∧
    parsePort (bytes "true") = .error (.unparseable (bytes "true")) ∧
    parsePort (bytes "false") = .error (.unparseable (bytes "false")) ∧
    parsePort (bytes "null") = .error (.atoi .invalid) ∧
    parsePort (bytes "\"\"") = .error (.atoi .invalid) ∧
    parsePort (bytes "\"https\"") = .error (.atoi .invalid) ∧
    parsePort (bytes "\" 443\"") = .error (.atoi .invalid) ∧
    parsePort (bytes "\"4.0\"") = .error (.atoi .invalid) ∧
    parsePort (bytes "443.0") = .error (.unparseable (bytes "443.0")) ∧
    parsePort (bytes "4e2") = .error (.unparseable (bytes "4e2")) ∧
    parsePort [] = .error (.unparseable []) := by
  decide

end Rsescan

namespace Rsescan

/-! ## Output of the certificate branch -/

theorem printCertificates_acc {ε : Type} (certs : List CertificateData) :
    ∀ (stdout : List Bytes) (log : List (LogLine ε)),
      printCertificates certs (stdout, log) =
        (stdout ++ certs.filterMap certificateLine,
         log ++ certs.filterMap certificateWarning) := by
  induction certs with
  | nil => intro stdout log; simp [printCertificates]
  | cons c rest ih =>
    intro stdout log
    rw [printCertificates]
    cases hp : parsePort c.port with
    | error err =>
      simp only
      rw [ih]
      simp [List.filterMap_cons, certificateLine, certificateWarning, hp]
    | ok port =>
      simp only
      rw [ih]
      have hb : bytes ":" = [58] := by decide
      have hn : bytes "\n" = [10] := by decide
      simp [List.filterMap_cons, certificateLine, certificateWarning, hp, hb, hn]

/-- C8: the writes to standard output in certificate mode are exactly, in the
order of the records, the line `ip:port` (decimal port, line feed) of every
record whose port `parsePort` accepts; a record whose port fails to parse
writes nothing, is logged once, and leaves the lines of the other records as
they are. -/
theorem printCertificates_lines {ε : Type} (certs : List CertificateData) :
    printCertificates certs (([] : List Bytes), ([] : List (LogLine ε))) =
      (certs.filterMap certificateLine, certs.filterMap certificateWarning) := by
  rw [printCertificates_acc]
  simp

set_option maxRecDepth 100000 in
/-- The two certificate scenarios of the specification: a record with port
`"443"` and address `1.2.3.4` prints `1.2.3.4:443`; a record with port `true`
is skipped with a log line and the remaining records are printed. -/
theorem printCertificates_scenarios :
    (@printCertificates Unit
      [{ ip := bytes "1.2.3.4", port := bytes "\"443\"", subjectCN := [], subjectOrg := [],
         timestamp := [] }] ([], [])).1 = [bytes "1.2.3.4:443\n"] ∧
    @printCertificates Unit
      [{ ip := bytes "1.2.3.4", port := bytes "true", subjectCN := [], subjectOrg := [],
         timestamp := [] },
       { ip := bytes "5.6.7.8", port := bytes "8443", subjectCN := [], subjectOrg := [],
         timestamp := [] }] ([], []) =
      ([bytes "5.6.7.8:8443\n"],
       [.portFailed (bytes "1.2.3.4") (.unparseable (bytes "true"))]) := by
  decide

/-! ## Request bodies -/

set_option maxRecDepth 100000 in
/-- C9, evaluated at the query `a"b`: the body built by `fetchSubdomains` and
by `fetchCertificates` holds the query unescaped and is not valid JSON; and at
the query `x","domain":"evil.example` the body is valid JSON with two members
instead of one. -/
theorem payload_not_escaped :
    subdomainPayload (bytes "a\"b") = bytes "\x7b\"domain\":\"a\"b\"\x7d" ∧
    checkValid (subdomainPayload (bytes "a\"b")) = false ∧
    certificatePayload (bytes "a\"b") "domain" = some (bytes "\x7b\"domain\":\"a\"b\"\x7d") ∧
    certificatePayload (bytes "a\"b") "org" = some (bytes "\x7b\"org_name\":\"a\"b\"\x7d") ∧
    checkValid (bytes "\x7b\"org_name\":\"a\"b\"\x7d") = false ∧
    subdomainPayload (bytes "x\",\"domain\":\"evil.example") =
      bytes "\x7b\"domain\":\"x\",\"domain\":\"evil.example\"\x7d" ∧
    checkValid (subdomainPayload (bytes "x\",\"domain\":\"evil.example")) = true :=
  ⟨by decide, by decide, by decide, by decide, by decide, by decide, by decide⟩

end Rsescan

namespace Rsescan

/-! ## The decoder never meets a literal it cannot unquote -/

theorem accepts_string_nil : accepts (scannerAt .inString) [] = false := rfl

theorem accepts_string_quote (c : Byte) (cs : Bytes) (hc : c.val = 34) :
    accepts (scannerAt .inString) (c :: cs) = accepts (scannerAt .endValue) cs := by
  rw [accepts_cons]
  simp [Scanner.run, scannerAt, stateInString, hc]

theorem accepts_string_control (c : Byte) (cs : Bytes) (hc : c.val < 32) :
    accepts (scannerAt .inString) (c :: cs) = false := by
  rw [accepts_cons]
  have h1 : c.val ≠ 34 := by omega
  have h2 : c.val ≠ 92 := by omega
  simp [Scanner.run, scannerAt, stateInString, h1, h2, hc, Scanner.fail]

theorem accepts_string_backslash (c : Byte) (cs : Bytes) (hc : c.val = 92) :
    accepts (scannerAt .inString) (c :: cs) = accepts (scannerAt .inStringEsc) cs := by
  rw [accepts_cons]
  simp [Scanner.run, scannerAt, stateInString, hc]

theorem accepts_esc_nil : accepts (scannerAt .inStringEsc) [] = false := rfl

theorem accepts_esc_simple (e : Byte) (cs : Bytes)
    (he : e.val = 98 ∨ e.val = 102 ∨ e.val = 110 ∨ e.val = 114 ∨ e.val = 116 ∨ e.val = 92
      ∨ e.val = 47 ∨ e.val = 34) :
    accepts (scannerAt .inStringEsc) (e :: cs) = accepts (scannerAt .inString) cs := by
  rw [accepts_cons]
  simp [Scanner.run, scannerAt, stateInStringEsc, he]

theorem accepts_esc_u (e : Byte) (cs : Bytes) (he : e.val = 117) :
    accepts (scannerAt .inStringEsc) (e :: cs) = accepts (scannerAt .inStringEscU) cs := by
  rw [accepts_cons]
  simp [Scanner.run, scannerAt, stateInStringEsc, he]

theorem accepts_esc_other (e : Byte) (cs : Bytes)
    (h1 : ¬ (e.val = 98 ∨ e.val = 102 ∨ e.val = 110 ∨ e.val = 114 ∨ e.val = 116 ∨ e.val = 92
      ∨ e.val = 47 ∨ e.val = 34)) (h2 : e.val ≠ 117) :
    accepts (scannerAt .inStringEsc) (e :: cs) = false := by
  rw [accepts_cons]
  simp [Scanner.run, scannerAt, stateInStringEsc, h1, h2, Scanner.fail]

theorem accepts_hex (k next : Step) (l : Bytes)
    (hk : ∀ c, (scannerAt k).run c = stateHex next (scannerAt k) c)
    (h : accepts (scannerAt k) l = true) :
    ∃ c rest, l = c :: rest ∧ isHex c = true ∧ accepts (scannerAt next) rest = true := by
  cases l with
  | nil =>
    have h32 : isHex 32 = false := by decide
    rw [accepts_nil, Scanner.eof, hk 32] at h
    simp [scannerAt, stateHex, h32, Scanner.fail] at h
  | cons c rest =>
    rw [accepts_cons, hk c] at h
    by_cases hc : isHex c = true
    · refine ⟨c, rest, rfl, hc, ?_⟩
      simpa [stateHex, hc, scannerAt] using h
    · simp [stateHex, hc, Scanner.fail] at h

/-- The four hexadecimal digits of a `\u` escape. -/
theorem accepts_hex4 (l : Bytes) (h : accepts (scannerAt .inStringEscU) l = true) :
    ∃ h1 h2 h3 h4 rest, l = h1 :: h2 :: h3 :: h4 :: rest ∧ isHex h1 = true ∧ isHex h2 = true ∧
      isHex h3 = true ∧ isHex h4 = true ∧ accepts (scannerAt .inString) rest = true := by
  obtain ⟨h1, r1, e1, x1, a1⟩ := accepts_hex .inStringEscU .inStringEscU1 l (fun _ => rfl) h
  obtain ⟨h2, r2, e2, x2, a2⟩ := accepts_hex .inStringEscU1 .inStringEscU12 r1 (fun _ => rfl) a1
  obtain ⟨h3, r3, e3, x3, a3⟩ := accepts_hex .inStringEscU12 .inStringEscU123 r2 (fun _ => rfl) a2
  obtain ⟨h4, r4, e4, x4, a4⟩ := accepts_hex .inStringEscU123 .inString r3 (fun _ => rfl) a3
  exact ⟨h1, h2, h3, h4, r4, by rw [e1, e2, e3, e4], x1, x2, x3, x4, a4⟩


theorem isStringBody_nil : isStringBody [] = true := rfl

theorem isStringBody_plain (c : Byte) (cs : Bytes) (h92 : c.val ≠ 92) :
    isStringBody (c :: cs) = (if c.val = 34 ∨ c.val < 32 then false else isStringBody cs) := by
  rw [isStringBody.eq_def]
  simp only [if_neg h92]

theorem isStringBody_esc_nil (c : Byte) (h92 : c.val = 92) : isStringBody [c] = false := by
  rw [isStringBody.eq_def]
  simp only [if_pos h92]

theorem isStringBody_esc_simple (c e : Byte) (rest : Bytes) (h92 : c.val = 92)
    (hs : e.val = 98 ∨ e.val = 102 ∨ e.val = 110 ∨ e.val = 114 ∨ e.val = 116 ∨ e.val = 92
      ∨ e.val = 47 ∨ e.val = 34) :
    isStringBody (c :: e :: rest) = isStringBody rest := by
  rw [isStringBody.eq_def]
  simp only [if_pos h92, if_pos hs]

theorem isStringBody_esc_other (c e : Byte) (rest : Bytes) (h92 : c.val = 92)
    (hs : ¬ (e.val = 98 ∨ e.val = 102 ∨ e.val = 110 ∨ e.val = 114 ∨ e.val = 116 ∨ e.val = 92
      ∨ e.val = 47 ∨ e.val = 34)) (hu : e.val ≠ 117) :
    isStringBody (c :: e :: rest) = false := by
  rw [isStringBody.eq_def]
  simp only [if_pos h92, if_neg hs, if_neg hu]

theorem isStringBody_esc_u (c e h1 h2 h3 h4 : Byte) (rest2 : Bytes) (h92 : c.val = 92)
    (hu : e.val = 117) :
    isStringBody (c :: e :: h1 :: h2 :: h3 :: h4 :: rest2) =
      (isHex h1 && isHex h2 && isHex h3 && isHex h4 && isStringBody rest2) := by
  have hs : ¬ (e.val = 98 ∨ e.val = 102 ∨ e.val = 110 ∨ e.val = 114 ∨ e.val = 116 ∨ e.val = 92
      ∨ e.val = 47 ∨ e.val = 34) := by omega
  rw [isStringBody.eq_def]
  simp only [if_pos h92, if_neg hs, if_pos hu]

theorem isStringBody_esc_u_short (c e : Byte) (rest : Bytes) (h92 : c.val = 92)
    (hu : e.val = 117) (hlen : rest.length < 4) :
    isStringBody (c :: e :: rest) = false := by
  have hs : ¬ (e.val = 98 ∨ e.val = 102 ∨ e.val = 110 ∨ e.val = 114 ∨ e.val = 116 ∨ e.val = 92
      ∨ e.val = 47 ∨ e.val = 34) := by omega
  rw [isStringBody.eq_def]
  simp only [if_pos h92, if_neg hs, if_pos hu]
  match rest, hlen with
  | [], _ => rfl
  | [_], _ => rfl
  | [_, _], _ => rfl
  | [_, _, _], _ => rfl
  | _ :: _ :: _ :: _ :: _, h => simp at h; omega

theorem rescanString_cons (c : Byte) (tl : Bytes) (hc : c.val ≠ 92 ∧ c.val ≠ 34)
    (htl : tl ≠ []) : rescanString (c :: tl) = c :: rescanString tl := by
  cases tl with
  | nil => exact absurd rfl htl
  | cons d rest => rw [rescanString, if_neg hc.1, if_neg hc.2]

theorem isHex_plain (c : Byte) (h : isHex c = true) : c.val ≠ 92 ∧ c.val ≠ 34 := by
  simp only [isHex, Bool.or_eq_true, Bool.and_eq_true, decide_eq_true_eq] at h
  omega

/-- A string literal that the scanner accepts is a string body and a closing
quote, and `rescanLiteral` cuts it there. -/
theorem rescanString_of_accepts (n : Nat) : ∀ rest : Bytes, rest.length ≤ n →
    accepts (scannerAt .inString) rest = true →
    ∃ body, rescanString rest = body ++ [34] ∧ isStringBody body = true := by
  induction n with
  | zero =>
    intro rest hlen h
    have : rest = [] := List.eq_nil_of_length_eq_zero (by omega)
    rw [this, accepts_string_nil] at h
    exact absurd h (by simp)
  | succ n ih =>
    intro rest hlen h
    cases rest with
    | nil => rw [accepts_string_nil] at h; exact absurd h (by simp)
    | cons c tl =>
      simp only [List.length_cons] at hlen
      by_cases h34 : c.val = 34
      · refine ⟨[], ?_, rfl⟩
        have hc : c = 34 := Fin.ext h34
        subst hc
        cases tl with
        | nil => rfl
        | cons d rest => rw [rescanString]; rfl
      by_cases h92 : c.val = 92
      · rw [accepts_string_backslash c tl h92] at h
        cases tl with
        | nil => rw [accepts_esc_nil] at h; exact absurd h (by simp)
        | cons e rest =>
          simp only [List.length_cons] at hlen
          by_cases hs : e.val = 98 ∨ e.val = 102 ∨ e.val = 110 ∨ e.val = 114 ∨ e.val = 116
              ∨ e.val = 92 ∨ e.val = 47 ∨ e.val = 34
          · rw [accepts_esc_simple e rest hs] at h
            obtain ⟨body, hb, hsb⟩ := ih rest (by omega) h
            refine ⟨c :: e :: body, ?_, ?_⟩
            · rw [rescanString, if_pos h92, hb]; rfl
            · rw [isStringBody_esc_simple c e body h92 hs]
              exact hsb
          · by_cases hu : e.val = 117
            · rw [accepts_esc_u e rest hu] at h
              obtain ⟨h1, h2, h3, h4, rest2, hr, x1, x2, x3, x4, hacc⟩ := accepts_hex4 rest h
              subst hr
              simp only [List.length_cons] at hlen
              obtain ⟨body, hb, hsb⟩ := ih rest2 (by omega) hacc
              have hne : rest2 ≠ [] := by
                intro hnil
                rw [hnil, accepts_string_nil] at hacc
                exact absurd hacc (by simp)
              refine ⟨c :: e :: h1 :: h2 :: h3 :: h4 :: body, ?_, ?_⟩
              · rw [rescanString, if_pos h92,
                  rescanString_cons h1 _ (isHex_plain h1 x1) (by simp),
                  rescanString_cons h2 _ (isHex_plain h2 x2) (by simp),
                  rescanString_cons h3 _ (isHex_plain h3 x3) (by simp),
                  rescanString_cons h4 _ (isHex_plain h4 x4) hne, hb]
                rfl
              · rw [isStringBody_esc_u c e h1 h2 h3 h4 body h92 hu]
                simp only [x1, x2, x3, x4, hsb, Bool.and_self]
            · rw [accepts_esc_other e rest hs hu] at h
              exact absurd h (by simp)
      by_cases hlt : c.val < 32
      · rw [accepts_string_control c tl hlt] at h
        exact absurd h (by simp)
      · rw [accepts_string_plain c tl ⟨h34, h92, by omega⟩] at h
        obtain ⟨body, hb, hsb⟩ := ih tl (by omega) h
        have hne : tl ≠ [] := by
          intro hnil
          rw [hnil, accepts_string_nil] at h
          exact absurd h (by simp)
        refine ⟨c :: body, ?_, ?_⟩
        · rw [rescanString_cons c tl ⟨h92, h34⟩ hne, hb]; rfl
        · rw [isStringBody_plain c body h92, if_neg (by omega)]
          exact hsb

end Rsescan

namespace Rsescan

theorem acceptLo_ge (p0 : Byte) : 128 ≤ acceptLo p0 := by
  unfold acceptLo
  split_ifs <;> omega

/-- The bytes that `utf8.DecodeRune` consumes at a byte from 0x80 up are all
from 0x80 up, and there is at least one. -/
theorem decodeRune_high (c : Byte) (cs : Bytes) (hc : 128 ≤ c.val) :
    ∃ pre post, c :: cs = pre ++ post ∧ pre.length = (decodeRune (c :: cs)).2 ∧
      1 ≤ pre.length ∧ ∀ b ∈ pre, 128 ≤ b.val := by
  have h80 : ¬ c.val < 0x80 := by omega
  have hlo := acceptLo_ge c
  have one : (decodeRune (c :: cs)).2 = 1 →
      ∃ pre post, c :: cs = pre ++ post ∧ pre.length = (decodeRune (c :: cs)).2 ∧
        1 ≤ pre.length ∧ ∀ b ∈ pre, 128 ≤ b.val :=
    fun h => ⟨[c], cs, rfl, h.symm, le_refl _, by simpa using hc⟩
  by_cases hbad : c.val < 0xC2 ∨ 0xF4 < c.val
  · exact one (by rw [decodeRune.eq_def]; simp only [if_neg h80, if_pos hbad])
  by_cases hlen : cs.length + 1 < leadSize c
  · exact one (by rw [decodeRune.eq_def]; simp only [if_neg h80, if_neg hbad, if_pos hlen])
  cases cs with
  | nil => exact one (by rw [decodeRune.eq_def]; simp only [if_neg h80, if_neg hbad, if_neg hlen])
  | cons b1 rest1 =>
    by_cases hb1 : b1.val < acceptLo c ∨ acceptHi c < b1.val
    · exact one (by rw [decodeRune.eq_def]; simp only [if_neg h80, if_neg hbad, if_neg hlen, if_pos hb1])
    by_cases hs2 : leadSize c ≤ 2
    · refine ⟨[c, b1], rest1, rfl, ?_, by simp, ?_⟩
      · rw [decodeRune.eq_def]
        simp only [if_neg h80, if_neg hbad, if_neg hlen, if_neg hb1, if_pos hs2]
        rfl
      · intro b hb
        simp only [List.mem_cons, List.mem_singleton, List.not_mem_nil, or_false] at hb
        rcases hb with h | h <;> rw [h] <;> omega
    cases rest1 with
    | nil =>
      exact one (by
        rw [decodeRune.eq_def]
        simp only [if_neg h80, if_neg hbad, if_neg hlen, if_neg hb1, if_neg hs2])
    | cons b2 rest2 =>
      by_cases hb2 : b2.val < 0x80 ∨ 0xBF < b2.val
      · exact one (by
          rw [decodeRune.eq_def]
          simp only [if_neg h80, if_neg hbad, if_neg hlen, if_neg hb1, if_neg hs2, if_pos hb2])
      by_cases hs3 : leadSize c ≤ 3
      · refine ⟨[c, b1, b2], rest2, rfl, ?_, by simp, ?_⟩
        · rw [decodeRune.eq_def]
          simp only [if_neg h80, if_neg hbad, if_neg hlen, if_neg hb1, if_neg hs2, if_neg hb2, if_pos hs3]
          rfl
        · intro b hb
          simp only [List.mem_cons, List.mem_singleton, List.not_mem_nil, or_false] at hb
          rcases hb with h | h | h <;> rw [h] <;> omega
      cases rest2 with
      | nil =>
        exact one (by
          rw [decodeRune.eq_def]
          simp only [if_neg h80, if_neg hbad, if_neg hlen, if_neg hb1, if_neg hs2, if_neg hb2, if_neg hs3])
      | cons b3 rest3 =>
        by_cases hb3 : b3.val < 0x80 ∨ 0xBF < b3.val
        · exact one (by
            rw [decodeRune.eq_def]
            simp only [if_neg h80, if_neg hbad, if_neg hlen, if_neg hb1, if_neg hs2, if_neg hb2, if_neg hs3, if_pos hb3])
        · refine ⟨[c, b1, b2, b3], rest3, rfl, ?_, by simp, ?_⟩
          · rw [decodeRune.eq_def]
            simp only [if_neg h80, if_neg hbad, if_neg hlen, if_neg hb1, if_neg hs2, if_neg hb2, if_neg hs3, if_neg hb3]
            rfl
          · intro b hb
            simp only [List.mem_cons, List.mem_singleton, List.not_mem_nil, or_false] at hb
            rcases hb with h | h | h | h <;> rw [h] <;> omega

theorem isStringBody_drop_high (pre post : Bytes) (hpre : ∀ b ∈ pre, 128 ≤ b.val)
    (h : isStringBody (pre ++ post) = true) : isStringBody post = true := by
  induction pre with
  | nil => exact h
  | cons c cs ih =>
    have hc := hpre c (List.mem_cons_self _ _)
    rw [List.cons_append, isStringBody_plain c _ (by omega), if_neg (by omega)] at h
    exact ih (fun b hb => hpre b (List.mem_cons_of_mem _ hb)) h

theorem drop_of_append (pre post : Bytes) (k : Nat) (hk : pre.length = k) :
    (pre ++ post).drop k = post := by
  subst hk
  exact List.drop_left _ _

end Rsescan

namespace Rsescan

theorem hexVal_of_isHex (h : Byte) (hh : isHex h = true) : ∃ v, hexVal h = some v := by
  simp only [isHex, Bool.or_eq_true, Bool.and_eq_true, decide_eq_true_eq] at hh
  unfold hexVal
  split_ifs
  · exact ⟨_, rfl⟩
  · exact ⟨_, rfl⟩
  · exact ⟨_, rfl⟩
  · omega

theorem isHex_of_hexVal (h : Byte) (v : Nat) (hv : hexVal h = some v) : isHex h = true := by
  unfold hexVal at hv
  simp only [isHex, Bool.or_eq_true, Bool.and_eq_true, decide_eq_true_eq]
  split_ifs at hv <;> omega

theorem getu4_of_hex (c e h1 h2 h3 h4 : Byte) (rest : Bytes) (hc : c.val = 92)
    (he : e.val = 117) (x1 : isHex h1 = true) (x2 : isHex h2 = true) (x3 : isHex h3 = true)
    (x4 : isHex h4 = true) : ∃ rr, getu4 (c :: e :: h1 :: h2 :: h3 :: h4 :: rest) = some rr := by
  obtain ⟨v1, e1⟩ := hexVal_of_isHex h1 x1
  obtain ⟨v2, e2⟩ := hexVal_of_isHex h2 x2
  obtain ⟨v3, e3⟩ := hexVal_of_isHex h3 x3
  obtain ⟨v4, e4⟩ := hexVal_of_isHex h4 x4
  refine ⟨((v1 * 16 + v2) * 16 + v3) * 16 + v4, ?_⟩
  rw [getu4, if_pos ⟨hc, he⟩, e1, e2, e3, e4]

theorem getu4_shape (s : Bytes) (r : Nat) (h : getu4 s = some r) :
    ∃ c e h1 h2 h3 h4 rest, s = c :: e :: h1 :: h2 :: h3 :: h4 :: rest ∧ c.val = 92 ∧
      e.val = 117 ∧ isHex h1 = true ∧ isHex h2 = true ∧ isHex h3 = true ∧ isHex h4 = true := by
  match s, h with
  | c :: e :: h1 :: h2 :: h3 :: h4 :: rest, h =>
    rw [getu4] at h
    by_cases hce : c.val = 92 ∧ e.val = 117
    · rw [if_pos hce] at h
      cases e1 : hexVal h1 with
      | none => rw [e1] at h; simp at h
      | some v1 =>
        cases e2 : hexVal h2 with
        | none => rw [e1, e2] at h; simp at h
        | some v2 =>
          cases e3 : hexVal h3 with
          | none => rw [e1, e2, e3] at h; simp at h
          | some v3 =>
            cases e4 : hexVal h4 with
            | none => rw [e1, e2, e3, e4] at h; simp at h
            | some v4 =>
              exact ⟨c, e, h1, h2, h3, h4, rest, rfl, hce.1, hce.2, isHex_of_hexVal _ _ e1,
                isHex_of_hexVal _ _ e2, isHex_of_hexVal _ _ e3, isHex_of_hexVal _ _ e4⟩
    · rw [if_neg hce] at h
      simp at h
  | [], h => simp [getu4] at h
  | [_], h => simp [getu4] at h
  | [_, _], h => simp [getu4] at h
  | [_, _, _], h => simp [getu4] at h
  | [_, _, _, _], h => simp [getu4] at h
  | [_, _, _, _, _], h => simp [getu4] at h

theorem isStringBody_drop_escape (s : Bytes) (r : Nat) (hg : getu4 s = some r)
    (hs : isStringBody s = true) : isStringBody (s.drop 6) = true := by
  obtain ⟨c, e, h1, h2, h3, h4, rest, rfl, hc, he, _⟩ := getu4_shape s r hg
  rw [isStringBody_esc_u c e h1 h2 h3 h4 rest hc he] at hs
  simp only [Bool.and_eq_true] at hs
  exact hs.2

theorem utf16DecodeRune_none (r1 : Nat) : utf16DecodeRune r1 none = runeError := rfl

theorem unquoteStep_simple (c e : Byte) (rest : Bytes) (h92 : c.val = 92)
    (hsim : e.val = 98 ∨ e.val = 102 ∨ e.val = 110 ∨ e.val = 114 ∨ e.val = 116 ∨ e.val = 92
      ∨ e.val = 47 ∨ e.val = 34) :
    ∃ out, unquoteStep c (e :: rest) = some (out, rest) := by
  unfold unquoteStep
  simp only [if_pos h92]
  by_cases h1 : e.val = 34 ∨ e.val = 92 ∨ e.val = 47 ∨ e.val = 39
  · exact ⟨[e], by rw [if_pos h1]⟩
  rw [if_neg h1]
  by_cases h2 : e.val = 98
  · exact ⟨[8], by rw [if_pos h2]⟩
  rw [if_neg h2]
  by_cases h3 : e.val = 102
  · exact ⟨[12], by rw [if_pos h3]⟩
  rw [if_neg h3]
  by_cases h4 : e.val = 110
  · exact ⟨[10], by rw [if_pos h4]⟩
  rw [if_neg h4]
  by_cases h5 : e.val = 114
  · exact ⟨[13], by rw [if_pos h5]⟩
  rw [if_neg h5]
  by_cases h6 : e.val = 116
  · exact ⟨[9], by rw [if_pos h6]⟩
  · omega

theorem unquoteStep_u (c e h1 h2 h3 h4 : Byte) (rest2 : Bytes) (rr : Nat) (h92 : c.val = 92)
    (hu : e.val = 117) (hrr : getu4 (c :: e :: h1 :: h2 :: h3 :: h4 :: rest2) = some rr) :
    unquoteStep c (e :: h1 :: h2 :: h3 :: h4 :: rest2) =
      (if isSurrogate rr = true then
        if utf16DecodeRune rr (getu4 rest2) ≠ runeError then
          some (encodeRune (utf16DecodeRune rr (getu4 rest2)), rest2.drop 6)
        else some (encodeRune runeError, rest2)
      else some (encodeRune rr, rest2)) := by
  have h1' : ¬ (e.val = 34 ∨ e.val = 92 ∨ e.val = 47 ∨ e.val = 39) := by omega
  have h2' : e.val ≠ 98 := by omega
  have h3' : e.val ≠ 102 := by omega
  have h4' : e.val ≠ 110 := by omega
  have h5' : e.val ≠ 114 := by omega
  have h6' : e.val ≠ 116 := by omega
  have hafter : List.drop 6 (c :: e :: h1 :: h2 :: h3 :: h4 :: rest2) = rest2 := rfl
  unfold unquoteStep
  simp only [if_pos h92, if_neg h1', if_neg h2', if_neg h3', if_neg h4', if_neg h5',
    if_neg h6', if_pos hu, hrr, hafter]

theorem unquoteStep_plain (c : Byte) (cs : Bytes) (h92 : c.val ≠ 92)
    (hq : ¬ (c.val = 34 ∨ c.val < 32)) :
    unquoteStep c cs =
      (if c.val < 0x80 then some ([c], cs)
       else some (encodeRune (decodeRune (c :: cs)).1, (c :: cs).drop (decodeRune (c :: cs)).2)) := by
  unfold unquoteStep
  simp only [if_neg h92, if_neg hq]

/-- On a string body one iteration of the second loop of `unquoteBytes`
succeeds, uses up at least one byte, and leaves a string body. -/
theorem unquoteStep_ok (c : Byte) (cs : Bytes) (hs : isStringBody (c :: cs) = true) :
    ∃ out rest, unquoteStep c cs = some (out, rest) ∧ rest.length ≤ cs.length ∧
      isStringBody rest = true := by
  by_cases h92 : c.val = 92
  · cases cs with
    | nil => rw [isStringBody_esc_nil c h92] at hs; exact absurd hs (by simp)
    | cons e rest =>
      by_cases hsim : e.val = 98 ∨ e.val = 102 ∨ e.val = 110 ∨ e.val = 114 ∨ e.val = 116
          ∨ e.val = 92 ∨ e.val = 47 ∨ e.val = 34
      · rw [isStringBody_esc_simple c e rest h92 hsim] at hs
        obtain ⟨out, hout⟩ := unquoteStep_simple c e rest h92 hsim
        exact ⟨out, rest, hout, by simp, hs⟩
      · by_cases hu : e.val = 117
        · by_cases hshort : rest.length < 4
          · rw [isStringBody_esc_u_short c e rest h92 hu hshort] at hs
            exact absurd hs (by simp)
          · obtain ⟨h1, h2, h3, h4, rest2, hr⟩ :
                ∃ h1 h2 h3 h4 rest2, rest = h1 :: h2 :: h3 :: h4 :: rest2 := by
              match rest, hshort with
              | h1 :: h2 :: h3 :: h4 :: rest2, _ => exact ⟨h1, h2, h3, h4, rest2, rfl⟩
              | [], h => simp at h
              | [_], h => simp at h
              | [_, _], h => simp at h
              | [_, _, _], h => simp at h
            subst hr
            rw [isStringBody_esc_u c e h1 h2 h3 h4 rest2 h92 hu] at hs
            simp only [Bool.and_eq_true] at hs
            obtain ⟨⟨⟨⟨x1, x2⟩, x3⟩, x4⟩, hs2⟩ := hs
            obtain ⟨rr, hrr⟩ := getu4_of_hex c e h1 h2 h3 h4 rest2 h92 hu x1 x2 x3 x4
            have hl : rest2.length ≤ (e :: h1 :: h2 :: h3 :: h4 :: rest2).length := by
              simp only [List.length_cons]; omega
            rw [unquoteStep_u c e h1 h2 h3 h4 rest2 rr h92 hu hrr]
            by_cases hsur : isSurrogate rr = true
            · rw [if_pos hsur]
              by_cases hdec : utf16DecodeRune rr (getu4 rest2) ≠ runeError
              · rw [if_pos hdec]
                cases hg : getu4 rest2 with
                | none => rw [hg, utf16DecodeRune_none] at hdec; exact absurd rfl hdec
                | some r2 =>
                  exact ⟨_, _, rfl, by simp only [List.length_drop, List.length_cons]; omega,
                    isStringBody_drop_escape rest2 r2 hg hs2⟩
              · rw [if_neg hdec]
                exact ⟨_, _, rfl, hl, hs2⟩
            · rw [if_neg hsur]
              exact ⟨_, _, rfl, hl, hs2⟩
        · rw [isStringBody_esc_other c e rest h92 hsim hu] at hs
          exact absurd hs (by simp)
  · have hsb := hs
    rw [isStringBody_plain c cs h92] at hs
    by_cases hq : c.val = 34 ∨ c.val < 32
    · rw [if_pos hq] at hs; exact absurd hs (by simp)
    · rw [if_neg hq] at hs
      rw [unquoteStep_plain c cs h92 hq]
      by_cases hascii : c.val < 0x80
      · rw [if_pos hascii]
        exact ⟨_, _, rfl, le_refl _, hs⟩
      · rw [if_neg hascii]
        obtain ⟨pre, post, hsplit, hk, h1, hhigh⟩ := decodeRune_high c cs (by omega)
        have hdrop : (c :: cs).drop (decodeRune (c :: cs)).2 = post := by
          rw [← hk]
          rw [hsplit]
          exact List.drop_left _ _
        rw [hsplit] at hsb
        have hpost := isStringBody_drop_high pre post hhigh hsb
        have hl : post.length ≤ cs.length := by
          have := congrArg List.length hsplit
          simp only [List.length_cons, List.length_append] at this
          omega
        exact ⟨_, post, by rw [hdrop], hl, hpost⟩

/-- On a string body the second loop of `unquoteBytes` always succeeds. -/
theorem unquoteLoop_isSome (fuel : Nat) : ∀ s : Bytes, s.length ≤ fuel →
    isStringBody s = true → ∃ out, unquoteLoop fuel s = some out := by
  induction fuel with
  | zero =>
    intro s hlen _
    have : s = [] := List.eq_nil_of_length_eq_zero (by omega)
    subst this
    exact ⟨[], rfl⟩
  | succ fuel ih =>
    intro s hlen hs
    cases s with
    | nil => exact ⟨[], by rw [unquoteLoop]⟩
    | cons c cs =>
      simp only [List.length_cons] at hlen
      obtain ⟨out, rest, hstep, hl, hrest⟩ := unquoteStep_ok c cs hs
      obtain ⟨o, ho⟩ := ih rest (by omega) hrest
      exact ⟨out ++ o, by rw [unquoteLoop, hstep]; simp only [ho]; rfl⟩

end Rsescan

namespace Rsescan

/-- The first loop of `unquoteBytes` stops between two items of a string body. -/
theorem unquoteScan_body (fuel : Nat) : ∀ s : Bytes, isStringBody s = true →
    isStringBody (s.drop (unquoteScan fuel s)) = true := by
  induction fuel with
  | zero => intro s hs; rw [unquoteScan]; exact hs
  | succ fuel ih =>
    intro s hs
    cases s with
    | nil => rw [List.drop_nil]; exact hs
    | cons c cs =>
      rw [unquoteScan]
      by_cases hsp : c.val = 92 ∨ c.val = 34 ∨ c.val < 32
      · rw [if_pos hsp]; exact hs
      · rw [if_neg hsp]
        have hcs : isStringBody cs = true := by
          rw [isStringBody_plain c cs (by omega), if_neg (by omega)] at hs
          exact hs
        by_cases hascii : c.val < 0x80
        · rw [if_pos hascii, Nat.add_comm, List.drop_succ_cons]
          exact ih cs hcs
        · rw [if_neg hascii]
          simp only
          split_ifs
          · exact hs
          · obtain ⟨pre, post, hsplit, hk, _, hhigh⟩ := decodeRune_high c cs (by omega)
            have hdrop : (c :: cs).drop (decodeRune (c :: cs)).2 = post := by
              rw [← hk, hsplit]
              exact List.drop_left _ _
            have hpost : isStringBody post = true :=
              isStringBody_drop_high pre post hhigh (by rw [← hsplit]; exact hs)
            rw [← List.drop_drop, hdrop]
            exact ih post hpost

/-- A quoted string body is always unquoted. -/
theorem unquoteBytes_isSome (body : Bytes) (hb : isStringBody body = true) :
    ∃ s, unquoteBytes (34 :: (body ++ [34])) = some s := by
  have hbody : (List.drop 1 (34 :: (body ++ [34]))).dropLast = body := by
    simp
  have hguard : ¬ ((34 :: (body ++ [34]) : Bytes).length < 2 ∨
      (34 :: (body ++ [34]) : Bytes).head? ≠ some 34 ∨
      (34 :: (body ++ [34]) : Bytes).getLast? ≠ some 34) := by
    have hl : (34 :: (body ++ [34]) : Bytes).getLast? = some 34 := by
      rw [← List.cons_append, List.getLast?_append]
      rfl
    simp [hl]
  rw [unquoteBytes, if_neg hguard]
  simp only [hbody]
  split_ifs
  · exact ⟨_, rfl⟩
  · obtain ⟨out, hout⟩ := unquoteLoop_isSome body.length
      (body.drop (unquoteScan body.length body))
      (by simp only [List.length_drop]; omega) (unquoteScan_body _ body hb)
    exact ⟨_, by rw [hout]; rfl⟩

theorem accepts_begin_nil : accepts (scannerAt .beginValue) [] = false := rfl

theorem skipSpace_head (data : Bytes) (c : Byte) (rest : Bytes)
    (h : skipSpace data = c :: rest) : isSpace c = false := by
  induction data with
  | nil => simp [skipSpace] at h
  | cons d ds ih =>
    rw [skipSpace] at h
    by_cases hd : isSpace d = true
    · rw [if_pos hd] at h; exact ih h
    · rw [if_neg hd] at h
      simp only [List.cons.injEq] at h
      rw [← h.1]
      simpa using hd

theorem accepts_begin_other (c : Byte) (cs : Bytes) (hsp : isSpace c = false)
    (h1 : c.val ≠ 123) (h2 : c.val ≠ 91) (h3 : c.val ≠ 34) (h4 : c.val ≠ 45)
    (h5 : ¬ (48 ≤ c.val ∧ c.val ≤ 57)) (h6 : c.val ≠ 116) (h7 : c.val ≠ 102)
    (h8 : c.val ≠ 110) : accepts (scannerAt .beginValue) (c :: cs) = false := by
  rw [accepts_cons]
  have h9 : c.val ≠ 48 := by omega
  have h10 : ¬ (49 ≤ c.val ∧ c.val ≤ 57) := by omega
  simp [Scanner.run, scannerAt, stateBeginValue, hsp, h1, h2, h3, h4, h6, h7, h8, h9, h10,
    Scanner.fail]

/-- The shape of a valid message: after the leading white space comes the
first byte of a JSON value, and a string literal there can be unquoted. -/
theorem valid_shape (raw : Bytes) (hv : checkValid raw = true) :
    ∃ c rest, skipSpace raw = c :: rest ∧
      (c.val = 123 ∨ c.val = 91 ∨ c.val = 34 ∨ c.val = 45 ∨ (48 ≤ c.val ∧ c.val ≤ 57)
        ∨ c.val = 116 ∨ c.val = 102 ∨ c.val = 110) ∧
      (c.val = 34 → ∃ s, unquoteBytes (literalItem c rest) = some s) := by
  rw [checkValid_eq_accepts, reset_eq, accepts_begin_skipSpace] at hv
  cases hsk : skipSpace raw with
  | nil => rw [hsk, accepts_begin_nil] at hv; exact absurd hv (by simp)
  | cons c rest =>
    rw [hsk] at hv
    have hsp := skipSpace_head raw c rest hsk
    refine ⟨c, rest, rfl, ?_, ?_⟩
    · by_contra hnot
      rw [accepts_begin_other c rest hsp (by omega) (by omega) (by omega) (by omega) (by omega)
        (by omega) (by omega) (by omega)] at hv
      exact absurd hv (by simp)
    · intro h34
      rw [accepts_begin_quote c rest h34] at hv
      obtain ⟨body, hb, hsb⟩ := rescanString_of_accepts rest.length rest (le_refl _) hv
      have hc : c = 34 := Fin.ext h34
      subst hc
      have hlit : literalItem 34 rest = 34 :: (body ++ [34]) := by
        rw [literalItem, if_pos (show ((34 : Byte).val = 34) from rfl), hb]
      rw [hlit]
      exact unquoteBytes_isSome body hsb

/-- The decoder is never out of step with the scanner: neither
`json.Unmarshal` panics. -/
theorem unmarshal_in_step (raw : Bytes) :
    unmarshalString raw ≠ .error .desync ∧ unmarshalInt raw ≠ .error .desync := by
  by_cases hv : checkValid raw = true
  · obtain ⟨c, rest, hsk, hc, hq⟩ := valid_shape raw hv
    have hnum : ¬ (c.val ≠ 45 ∧ (c.val < 48 ∨ c.val > 57)) ∨ c.val = 123 ∨ c.val = 91
        ∨ c.val = 34 ∨ c.val = 116 ∨ c.val = 102 ∨ c.val = 110 := by omega
    constructor
    · unfold unmarshalString
      simp only [hv, not_true_eq_false, if_false, hsk]
      split_ifs
      all_goals first
        | omega
        | (obtain ⟨s, hs⟩ := hq (by assumption); rw [hs]; simp)
        | simp
    · unfold unmarshalInt
      simp only [hv, not_true_eq_false, if_false, hsk]
      split_ifs
      all_goals first
        | omega
        | (obtain ⟨s, hs⟩ := hq (by assumption); rw [hs]; simp)
        | (split <;> simp)
        | simp
  · constructor
    · unfold unmarshalString
      simp [hv]
    · unfold unmarshalInt
      simp [hv]

end Rsescan
